import Mathlib

/-!
Verification of `cisco_sdwan/base/models_base.py` (Sastre) against its
natural-language specification.

The Python module is shallowly embedded below.  Conventions used throughout:

* Python `dict`s whose keys are strings become association lists
  `List (String × α)` in insertion order; `dict.get` becomes `alookup`.
* JSON-serializable values become the inductive type `Json`.  Numbers are
  modelled as `Int` (floats are outside the scope of this embedding).
* Raising an exception is modelled with `Except PyErr` (or `Option` when the
  particular exception kind is irrelevant to the property at hand).
* Python `re` functions are embedded per concrete pattern appearing in the
  source, as executable Lean functions whose semantics is transcribed from
  the pattern (leftmost, non-overlapping scan; `.` does not match a newline;
  `$` also matches just before a trailing newline).  Character classes are
  modelled at ASCII scope: Python's Unicode-aware `\w`/`str.lower` coincide
  with the model on ASCII input, which is the character range the vManage
  names in this module use.
* Recursions that the proofs below evaluate on concrete inputs are written
  with an explicit fuel argument so that they are structural and reduce in
  the kernel; the fuel supplied by the wrappers is always sufficient
  (each step consumes at least one character).
-/

namespace Sastre

/-- Python exception kinds raised by the code paths modelled here. -/
inductive PyErr where
  | keyError
  | valueError
  | indexError
  | typeError
  | regexError
deriving DecidableEq, Repr

deriving instance DecidableEq for Except

/-- JSON-serializable values (numbers restricted to integers; objects are
association lists in insertion order, matching Python `dict` iteration). -/
inductive Json where
  | null
  | bool (b : Bool)
  | num (n : Int)
  | str (s : String)
  | arr (elems : List Json)
  | obj (members : List (String × Json))

instance : Inhabited Json := ⟨Json.null⟩

/-- `d.get(k)` on a Python dict with unique keys: first matching entry. -/
def alookup {α : Type} : List (String × α) → String → Option α
  | [], _ => none
  | (k, v) :: t, key => if k = key then some v else alookup t key

/-- Python dict update `d[k] = v`: replace in place if the key exists
(keeping its original position), else append. -/
def upsert {α : Type} : List (String × α) → String → α → List (String × α)
  | [], k, v => [(k, v)]
  | (k', v') :: t, k, v => if k' = k then (k, v) :: t else (k', v') :: upsert t k v

/-! ### Character classes (ASCII scope of the Python `re` classes used) -/

/-- A lowercase hexadecimal digit, the character class `[0-9a-f]` of the
UUID pattern: code points 48–57 (`0`–`9`) and 97–102 (`a`–`f`). -/
def isHexLower (c : Char) : Bool :=
  (48 ≤ c.toNat && c.toNat ≤ 57) || (97 ≤ c.toNat && c.toNat ≤ 102)

/-- ASCII scope of Python `\w`: letters, digits and underscore. -/
def isPyWord (c : Char) : Bool := c.isAlphanum || c == '_'

/-- Python `\s` (ASCII scope): space, tab, newline, carriage return,
vertical tab, form feed. -/
def isPySpace (c : Char) : Bool :=
  (9 ≤ c.toNat && c.toNat ≤ 13) || c.toNat == 32

/-! ### `filename_safe` -/

/-- `filename_safe(name, lower)`: `re.sub(r'[^\w\s-]', '_', name)`, then
`str.lower()` when `lower` is set.  The substitution is a per-character
replacement because the pattern matches single characters. -/
def filename_safe (name : String) (lower : Bool) : String :=
  let cleaned := String.mk (name.data.map
    (fun c => if isPyWord c || isPySpace c || c == '-' then c else '_'))
  if lower then String.mk (cleaned.data.map Char.toLower) else cleaned

/-- The character set `[A-Za-z0-9_ -]` named by the specification's claim
about `filename_safe` output. -/
def specSafeChar (c : Char) : Bool := c.isAlphanum || c == '_' || c == ' ' || c == '-'

/-! ### `str.format` (keyword substitution subset)

`pyFormat s vals` models Python `s.format(**dict(vals))` for format strings
whose replacement fields are plain keyword names: `{{`/`}}` unescape to a
literal brace, `{field}` looks `field` up in `vals` (KeyError when absent,
IndexError for the empty auto-numbering field `{}`), a lone `}` or an
unterminated `{` raise ValueError.  The format-spec mini-language after `:`
is not modelled (no format string in this module uses it); such a field is
treated as a whole-field key lookup. -/

def pyFormatF (vals : List (String × String)) : Nat → List Char → Except PyErr (List Char)
  | 0, _ => .error .valueError
  | _, [] => .ok []
  | fuel + 1, '\x7b' :: '\x7b' :: rest =>
    match pyFormatF vals fuel rest with
    | .ok out => .ok ('\x7b' :: out)
    | .error e => .error e
  | fuel + 1, '\x7d' :: '\x7d' :: rest =>
    match pyFormatF vals fuel rest with
    | .ok out => .ok ('\x7d' :: out)
    | .error e => .error e
  | _ + 1, '\x7d' :: _ => .error .valueError
  | fuel + 1, '\x7b' :: rest =>
    let field := rest.takeWhile (fun c => c ≠ '\x7d')
    let after := rest.drop field.length
    match after with
    | [] => .error .valueError
    | _ :: after' =>
      if field.isEmpty then .error .indexError
      else
        match alookup vals (String.mk field) with
        | none => .error .keyError
        | some v =>
          match pyFormatF vals fuel after' with
          | .ok out => .ok (v.data ++ out)
          | .error e => .error e
  | fuel + 1, c :: rest =>
    match pyFormatF vals fuel rest with
    | .ok out => .ok (c :: out)
    | .error e => .error e

def pyFormat (s : String) (vals : List (String × String)) : Except PyErr String :=
  match pyFormatF vals (s.length + 1) s.data with
  | .ok out => .ok (String.mk out)
  | .error e => .error e

/-! ### `ConfigItem.get_filename` -/

/-- `ConfigItem.get_filename(ext_name, item_name, item_id)`.  When either
variable is `None` the raw `store_file` template is returned unsubstituted;
otherwise the name component is `filename_safe(item_name)` (suffixed with
`_` and the id when `ext_name` is set, inlining the constant template
`'{name}_{uuid}'.format(...)`) and `store_file.format(...)` is applied. -/
def get_filename (store_file : String) (ext_name : Bool)
    (item_name item_id : Option String) : Except PyErr String :=
  match item_name, item_id with
  | some nm, some iid =>
    let safe_name :=
      if ext_name then filename_safe nm false ++ "_" ++ iid else filename_safe nm false
    pyFormat store_file [("item_name", safe_name), ("item_id", iid)]
  | _, _ => .ok store_file

/-! ### `ApiPath` -/

/-- The four per-verb URL paths an `ApiPath` groups (each a path string or
`None`).  The slots are written once by the constructor model below and the
structure is immutable, matching the specified construction-time fixing. -/
structure ApiPath where
  get : Option String
  post : Option String
  put : Option String
  delete : Option String
deriving DecidableEq, Repr

/-- `ApiPath.__init__(get, *other_ops)`: `last_op` is the last element of
`other_ops` (or `get` when none were given) and
`zip_longest(('post','put','delete'), other_ops, fillvalue=last_op)` assigns
each remaining slot its positional argument, defaulting to `last_op`.  More
than three extra arguments make `zip_longest` emit a pair whose "slot" is
`last_op` itself, and the resulting `setattr` fails on the `__slots__`
class: modelled as `none`. -/
def ApiPath.build (get : Option String) (other_ops : List (Option String)) :
    Option ApiPath :=
  if other_ops.length > 3 then none
  else
    let last_op := other_ops.getLastD get
    some ⟨get, other_ops.getD 0 last_op, other_ops.getD 1 last_op,
          other_ops.getD 2 last_op⟩

/-! ### `json.dumps` (default arguments: `ensure_ascii=True`,
separators `', '` and `': '`, no indent) -/

/-- Lowercase hexadecimal digit character for a nibble. -/
def hexDigitLower (n : Nat) : Char :=
  Char.ofNat (if n < 10 then 48 + n else 87 + n)

/-- Four lowercase hex digits of `n < 0x10000`, as in a `\uXXXX` escape. -/
def hex4Lower (n : Nat) : List Char :=
  [hexDigitLower (n / 4096 % 16), hexDigitLower (n / 256 % 16),
   hexDigitLower (n / 16 % 16), hexDigitLower (n % 16)]

/-- One string character as `json.dumps` emits it (`ensure_ascii=True`):
printable ASCII other than `"` and `\` is literal; the two-character
shorthands cover `\` `"` `\b` `\f` `\n` `\r` `\t`; every other character
below `0x20` or above `0x7e` becomes `\uXXXX` (a surrogate pair beyond the
basic plane). -/
def escapeChar (c : Char) : List Char :=
  if c = '"' then ['\\', '"']
  else if c = '\\' then ['\\', '\\']
  else if c = '\x08' then ['\\', 'b']
  else if c = '\x0c' then ['\\', 'f']
  else if c = '\n' then ['\\', 'n']
  else if c = '\r' then ['\\', 'r']
  else if c = '\t' then ['\\', 't']
  else if 0x20 ≤ c.toNat && c.toNat ≤ 0x7e then [c]
  else if c.toNat < 0x10000 then '\\' :: 'u' :: hex4Lower c.toNat
  else
    let v := c.toNat - 0x10000
    ('\\' :: 'u' :: hex4Lower (0xd800 + v / 0x400)) ++
      ('\\' :: 'u' :: hex4Lower (0xdc00 + v % 0x400))

/-- A string's characters escaped one by one. -/
def escapeList : List Char → List Char
  | [] => []
  | c :: t => escapeChar c ++ escapeList t

/-- A serialized string literal: quote, escaped content, quote. -/
def dumpsStr (s : String) : List Char := '"' :: (escapeList s.data ++ ['"'])

/-- Decimal digit characters of a natural number, most significant first
(fuelled; `natChars` supplies enough fuel for every input). -/
def natCharsF : Nat → Nat → List Char
  | 0, _ => []
  | fuel + 1, n =>
    if n < 10 then [Char.ofNat ('0'.toNat + n)]
    else natCharsF fuel (n / 10) ++ [Char.ofNat ('0'.toNat + n % 10)]

def natChars (n : Nat) : List Char := natCharsF (n + 1) n

/-- An integer as Python serializes it: optional minus sign, then decimal
digits. -/
def intChars (i : Int) : List Char :=
  if i < 0 then '-' :: natChars i.natAbs else natChars i.natAbs

mutual

/-- `json.dumps` of a value, as a character list. -/
def dumpsVal : Json → List Char
  | .num i => intChars i
  | .str s => dumpsStr s
  | .arr es => '[' :: (dumpsArr es ++ [']'])
  | .obj ms => '\x7b' :: (dumpsObj ms ++ ['\x7d'])
  | .null => "null".data
  | .bool true => "true".data
  | .bool false => "false".data

/-- Array items joined by the default item separator `', '`. -/
def dumpsArr : List Json → List Char
  | [] => []
  | e :: es => dumpsVal e ++ dumpsArrSep es

def dumpsArrSep : List Json → List Char
  | [] => []
  | e :: es => ',' :: ' ' :: (dumpsVal e ++ dumpsArrSep es)

/-- Object members `"key": value` joined by `', '`. -/
def dumpsObj : List (String × Json) → List Char
  | [] => []
  | (k, v) :: ms => dumpsStr k ++ ':' :: ' ' :: (dumpsVal v ++ dumpsObjSep ms)

def dumpsObjSep : List (String × Json) → List Char
  | [] => []
  | (key, v) :: ms =>
    ',' :: ' ' :: (dumpsStr key ++ ':' :: ' ' :: (dumpsVal v ++ dumpsObjSep ms))

end

/-- `json.dumps(j)` as a `String`. -/
def dumps (j : Json) : String := String.mk (dumpsVal j)

/-! ### `ConfigItem.is_equal` -/

/-- The top-level key filter of `is_equal`: keep entries whose key is
neither in `skip_cmp_tag_set` nor equal to `id_tag` (a `None` `id_tag`
contributes nothing, since string keys never equal `None`). -/
def stripKeys (idTag : Option String) (skip : List String)
    (d : List (String × Json)) : List (String × Json) :=
  d.filter (fun kv => !(skip.contains kv.1 || some kv.1 == idTag))

/-- Python `sorted` on the characters of a string: any sorted permutation;
insertion sort produces the same list as Python's stable sort because
equal characters are indistinguishable. -/
def sortChars (cs : List Char) : List Char := cs.insertionSort (· ≤ ·)

/-- `ConfigItem.is_equal(other)`: strip the identifier and excluded keys
from both payloads, serialize, and compare the sorted character lists. -/
def is_equal (idTag : Option String) (skip : List String)
    (dlocal dother : List (String × Json)) : Bool :=
  sortChars (dumpsVal (Json.obj (stripKeys idTag skip dlocal))) ==
    sortChars (dumpsVal (Json.obj (stripKeys idTag skip dother)))

/-! ### `ApiItem.is_empty` and `ConfigItem.save` -/

/-- Python `len` on a JSON value: defined for objects, arrays and strings,
a `TypeError` (`none`) otherwise. -/
def pyLen : Json → Option Nat
  | .obj ms => some ms.length
  | .arr es => some es.length
  | .str s => some s.length
  | _ => none

/-- `ApiItem.is_empty`: `self.data is None or len(self.data) == 0`;
`none` models the `TypeError` `len` raises on an unsized payload. -/
def is_empty (data : Option Json) : Option Bool :=
  match data with
  | none => some true
  | some j => (pyLen j).map (fun n => n == 0)

/-- The filesystem state `save` acts on: files (path to stored JSON
document) and the set of directories that exist. -/
structure Fs where
  files : List (String × Json)
  dirs : List String

def joinPath (parts : List String) : String := String.intercalate "/" parts

/-- `open(path, 'w')` followed by `json.dump`: create or truncate-overwrite. -/
def Fs.write (fs : Fs) (path : String) (content : Json) : Fs :=
  ⟨upsert fs.files path content, fs.dirs⟩

/-- `Path.mkdir(parents=True, exist_ok=True)`: idempotent directory creation. -/
def Fs.mkdirp (fs : Fs) (d : String) : Fs :=
  ⟨fs.files, if fs.dirs.contains d then fs.dirs else d :: fs.dirs⟩

/-- `ConfigItem.save(node_dir, ext_name, item_name, item_id)` against an
explicit filesystem state.  Returns `none` when the Python code would
raise (a `TypeError` from `len`, or a formatting error while building the
filename), `some (returnValue, newState)` otherwise. -/
def configSave (root_dir node_dir : String) (store_path : List String)
    (store_file : String) (data : Option Json) (ext_name : Bool)
    (item_name item_id : Option String) (fs : Fs) : Option (Bool × Fs) :=
  match is_empty data with
  | none => none
  | some true => some (false, fs)
  | some false =>
    match data with
    | none => none
    | some payload =>
      let dir_path := joinPath (root_dir :: node_dir :: store_path)
      let fs1 := fs.mkdirp dir_path
      match get_filename store_file ext_name item_name item_id with
      | .error _ => none
      | .ok fname => some (true, fs1.write (dir_path ++ "/" ++ fname) payload)

/-! ### `ExtendedTemplate`

`ExtendedTemplate.__call__(name)` scans the template with
`re.compile(r'{name(?:\s+(?P<regex>.*?))?\}')`, replacing each match by a
fresh `{name_i}` label whose value is `name` itself (no attached regex) or
the result of `regex.subn` with the concatenation of the regex's capture
groups as replacement; it raises `KeyError` when a regex has no capturing
group or when no placeholder matched, and finally applies `str.format`.

The user-supplied inner regex is embedded through the `PyRegex` interface:
`compile` maps a regex source string to its behaviour, and each concrete
regex a claim exercises is transcribed by hand below. -/

/-- A compiled inner regex as `ExtendedTemplate` uses it: its number of
capturing groups and the behaviour of
`subn(''.join over the groups, name)` — replace every match by the
concatenation of its capture groups, returning the result and the match
count. -/
structure PyRegex where
  groups : Nat
  subnGroups : String → String × Nat

/-- Match `{name(?:\s+(?P<regex>.*?))?\}` at the head of `cs`; on success,
return the captured regex (if the whitespace-plus-regex branch matched) and
the remaining input.  The lazy `.*?` stops at the first `}`, `.` cannot
cross a newline, and a shorter split of the greedy `\s+` cannot succeed
where the maximal one fails because `.` matches every non-newline
whitespace character as well. -/
def matchNameAt (cs : List Char) : Option (Option String × List Char) :=
  match cs with
  | '\x7b' :: 'n' :: 'a' :: 'm' :: 'e' :: tail =>
    let ws := tail.takeWhile isPySpace
    if ws.isEmpty then
      match tail with
      | '\x7d' :: rest => some (none, rest)
      | _ => none
    else
      let after := tail.drop ws.length
      let rx := after.takeWhile (fun c => c ≠ '\x7d' && c ≠ '\n')
      match after.drop rx.length with
      | '\x7d' :: rest => some (some (String.mk rx), rest)
      | _ => none
  | _ => none

/-- The `regex_replace` callback's extracted value for one placeholder:
the source name itself when no regex is attached; otherwise compile the
regex, raise `KeyError` when it has no capturing group, and run
`subn` with the group-concatenation replacement — an unmatched regex
extracts the empty string. -/
def placeholderValue (compile : String → Except PyErr PyRegex) (name : String) :
    Option String → Except PyErr String
  | none => .ok name
  | some rx =>
    match compile rx with
    | .error e => .error e
    | .ok reg =>
      if reg.groups == 0 then .error .keyError
      else .ok (if (reg.subnGroups name).2 == 0 then "" else (reg.subnGroups name).1)

/-- The template scan (`template_pattern.subn(regex_replace, src_template)`):
the leftmost, non-overlapping scan over the template.  Returns the rewritten
template characters, the `label_value_map` entries, and the final
placeholder count; errors propagate out of the callback as they do out of
`re.subn`. -/
def templScanF (compile : String → Except PyErr PyRegex) (name : String) :
    Nat → List Char → Nat → Except PyErr (List Char × List (String × String) × Nat)
  | 0, _, _ => .error .valueError
  | fuel + 1, cs, cnt =>
    match matchNameAt cs with
    | some (rxOpt, rest) =>
      match placeholderValue compile name rxOpt with
      | .error e => .error e
      | .ok v =>
        match templScanF compile name fuel rest (cnt + 1) with
        | .error e => .error e
        | .ok (out, lmap, total) =>
          .ok ('\x7b' :: (("name_" ++ toString cnt).data ++ '\x7d' :: out),
               ("name_" ++ toString cnt, v) :: lmap, total)
    | none =>
      match cs with
      | [] => .ok ([], [], cnt)
      | c :: rest =>
        match templScanF compile name fuel rest cnt with
        | .error e => .error e
        | .ok (out, lmap, total) => .ok (c :: out, lmap, total)

/-- `ExtendedTemplate(template)(name)`: scan, require at least one
placeholder (`KeyError` otherwise), then `template.format(**label_value_map)`. -/
def extTemplateCall (compile : String → Except PyErr PyRegex)
    (template name : String) : Except PyErr String :=
  match templScanF compile name (template.length + 1) template.data 0 with
  | .error e => .error e
  | .ok (tchars, lmap, total) =>
    if total == 0 then .error .keyError
    else pyFormat (String.mk tchars) lmap

/-- Placeholder count of a template, independent of any regex behaviour:
the number of matches the template scan finds. -/
def countPlaceholdersF : Nat → List Char → Nat
  | 0, _ => 0
  | fuel + 1, cs =>
    match matchNameAt cs with
    | some (_, rest) => countPlaceholdersF fuel rest + 1
    | none =>
      match cs with
      | [] => 0
      | _ :: rest => countPlaceholdersF fuel rest

def countPlaceholders (t : String) : Nat := countPlaceholdersF (t.length + 1) t.data

/-- The regex attached to the first placeholder the scan reaches (`some none`
when that placeholder has no regex), or `none` when the template has no
placeholder at all. -/
def firstPlaceholderRegexF : Nat → List Char → Option (Option String)
  | 0, _ => none
  | fuel + 1, cs =>
    match matchNameAt cs with
    | some (rxOpt, _) => some rxOpt
    | none =>
      match cs with
      | [] => none
      | _ :: rest => firstPlaceholderRegexF fuel rest

def firstPlaceholderRegex (t : String) : Option (Option String) :=
  firstPlaceholderRegexF (t.length + 1) t.data

/-- Hand transcription of `re.compile('(abc)(.*)')` used with a
group-concatenation replacement: each match starts at a literal `abc` and
greedily extends to the end of the line; the replacement `\1\2` reproduces
the matched text, so the output equals the input and only the match count
varies. -/
def abcSubnF : Nat → List Char → List Char × Nat
  | 0, _ => ([], 0)
  | fuel + 1, cs =>
    match cs with
    | 'a' :: 'b' :: 'c' :: rest =>
      let line := rest.takeWhile (fun c => c ≠ '\n')
      let (out, n) := abcSubnF fuel (rest.drop line.length)
      ('a' :: 'b' :: 'c' :: (line ++ out), n + 1)
    | c :: rest =>
      let (out, n) := abcSubnF fuel rest
      (c :: out, n)
    | [] => ([], 0)

def regexAbcStar : PyRegex :=
  ⟨2, fun s => let (cs, n) := abcSubnF (s.length + 1) s.data; (String.mk cs, n)⟩

/-- Hand transcription of `re.compile('xyz')` (no capturing group, so the
group-concatenation replacement is empty). -/
def xyzSubnF : Nat → List Char → List Char × Nat
  | 0, _ => ([], 0)
  | fuel + 1, cs =>
    match cs with
    | 'x' :: 'y' :: 'z' :: rest =>
      let (out, n) := xyzSubnF fuel rest
      (out, n + 1)
    | c :: rest =>
      let (out, n) := xyzSubnF fuel rest
      (c :: out, n)
    | [] => ([], 0)

def regexXyzPlain : PyRegex :=
  ⟨0, fun s => let (cs, n) := xyzSubnF (s.length + 1) s.data; (String.mk cs, n)⟩

/-- `re.compile` for the concrete inner regexes exercised below; any other
source string is out of the modelled table. -/
def compileTable : String → Except PyErr PyRegex :=
  fun rx =>
    if rx = "(abc)(.*)" then .ok regexAbcStar
    else if rx = "xyz" then .ok regexXyzPlain
    else .error .regexError

/-! ### `ConfigItem.name_check_regex` and `get_new_name`

`name_check_regex = re.compile(r'(?=^.{1,128}$)[^&<>! "]+$')`, used with
`search`.  Since the lookahead anchors at `^` (no `re.M`), only position 0
can match: the lookahead needs some `1 ≤ k ≤ 128` non-newline characters
followed by a Python `$` (end of string, or just before a terminal
newline), and the body needs `m ≥ 1` characters outside `&<>! "` followed
by `$`. -/

def nameBadChar (c : Char) : Bool :=
  c == '&' || c == '<' || c == '>' || c == '!' || c == ' ' || c == '"'

/-- Python `$` at offset `k` of `cs`. -/
def pyLineEnd (cs : List Char) (k : Nat) : Bool :=
  k == cs.length || (k + 1 == cs.length && cs.getD k ' ' == '\n')

def nameLookahead (cs : List Char) : Bool :=
  (List.range 129).any (fun k =>
    1 ≤ k && (cs.take k).all (fun c => c ≠ '\n') && pyLineEnd cs k)

def nameBody (cs : List Char) : Bool :=
  (List.range (cs.length + 1)).any (fun m =>
    1 ≤ m && (cs.take m).all (fun c => !nameBadChar c) && pyLineEnd cs m)

/-- `name_check_regex.search(s) is not None`. -/
def name_check (s : String) : Bool := nameLookahead s.data && nameBody s.data

/-- `ConfigItem.get_new_name(name_template)`: apply the template to
`self.data[self.name_tag]` catching `KeyError` (a missing name, a
template without `{name}`, a groupless regex, or an unknown label in
`format`) into `(None, False)`; otherwise validate the produced name with
`name_check_regex.search`.  A non-string name value is modelled as a
`TypeError` (the string operations downstream are embedded for `str`
names only). -/
def get_new_name (compile : String → Except PyErr PyRegex) (template : String)
    (data : List (String × Json)) (name_tag : Option String) :
    Except PyErr (Option String × Bool) :=
  let nameVal : Except PyErr String :=
    match name_tag with
    | none => .error .keyError
    | some tag =>
      match alookup data tag with
      | none => .error .keyError
      | some (Json.str s) => .ok s
      | some _ => .error .typeError
  match nameVal with
  | .error .keyError => .ok (none, false)
  | .error e => .error e
  | .ok nm =>
    match extTemplateCall compile template nm with
    | .error .keyError => .ok (none, false)
    | .error e => .error e
    | .ok s => .ok (some s, name_check s)

/-! ### The UUID pattern and `update_ids`

`update_ids` runs
`re.sub(r'[0-9a-f]{8}-[0-9a-f]{4}-[0-9a-f]{4}-[0-9a-f]{4}-[0-9a-f]{12}', replace_id, json.dumps(item_data))`
and parses the result back with `json.loads`.  The pattern is fixed-shape:
a 36-character window matches iff positions 8, 13, 18 and 23 hold `-` and
every other position holds a lowercase hex digit.  Matching therefore
depends only on each character's *class* — the pair
`(isHexLower c, c == '-')` — which the proofs below exploit. -/

/-- The class of a character as the UUID pattern sees it. -/
def charClass (c : Char) : Bool × Bool := (isHexLower c, c == '-')

def profile (cs : List Char) : List (Bool × Bool) := cs.map charClass

/-- The hyphen offsets of the `8-4-4-4-12` shape. -/
def hyphenPos (i : Nat) : Bool := i == 8 || i == 13 || i == 18 || i == 23

/-- Whether a class profile is a full 36-character UUID window. -/
def shapedP (pr : List (Bool × Bool)) : Bool :=
  pr.length == 36 && (List.range 36).all (fun i =>
    if hyphenPos i then (pr.getD i (false, false)).2 else (pr.getD i (false, false)).1)

/-- The UUID pattern matches exactly the 36-character lists of this shape. -/
def uuidShaped (cs : List Char) : Bool := shapedP (profile cs)

def uuidShapedStr (s : String) : Bool := uuidShaped s.data

/-- The leftmost, non-overlapping `re.sub` scan for the UUID pattern,
replacing each matched window through `σ` (fuelled; `applyScan` supplies
`cs.length`, sufficient since every step consumes at least one character). -/
def applyScanF (σ : List Char → List Char) : Nat → List Char → List Char
  | 0, cs => cs
  | fuel + 1, cs =>
    if uuidShaped (cs.take 36) then σ (cs.take 36) ++ applyScanF σ fuel (cs.drop 36)
    else
      match cs with
      | [] => []
      | c :: rest => c :: applyScanF σ fuel rest

def applyScan (σ : List Char → List Char) (cs : List Char) : List Char :=
  applyScanF σ cs.length cs

/-- The windows the scan matches (`re.findall` of the UUID pattern). -/
def foundIdsF : Nat → List Char → List (List Char)
  | 0, _ => []
  | fuel + 1, cs =>
    if uuidShaped (cs.take 36) then cs.take 36 :: foundIdsF fuel (cs.drop 36)
    else
      match cs with
      | [] => []
      | _ :: rest => foundIdsF fuel rest

def foundIds (cs : List Char) : List (List Char) := foundIdsF cs.length cs

/-- `replace_id`: `id_mapping_dict.get(matched_id, matched_id)`. -/
def idSub (m : List (String × String)) (u : List Char) : List Char :=
  match alookup m (String.mk u) with
  | some v => v.data
  | none => u

/-- `{v: k for k, v in m.items()}`: value-to-key inversion where a later
entry overrides an earlier one with the same value. -/
def invertMap (m : List (String × String)) : List (String × String) :=
  m.reverse.map (fun kv => (kv.2, kv.1))

/-! ### `json.loads` -/

def isWsJson (c : Char) : Bool := c == '\n' || c == '\r' || c == ' ' || c == '\t'

def skipWs : List Char → List Char
  | c :: cs => if isWsJson c then skipWs cs else c :: cs
  | [] => []

def hexDigitVal (c : Char) : Option Nat :=
  let n := c.toNat
  if 48 ≤ n && n ≤ 57 then some (n - 48)
  else if 97 ≤ n && n ≤ 102 then some (n - 87)
  else if 65 ≤ n && n ≤ 70 then some (n - 55)
  else none

def hexQuad (a b c d : Char) : Option Nat := do
  let va ← hexDigitVal a
  let vb ← hexDigitVal b
  let vc ← hexDigitVal c
  let vd ← hexDigitVal d
  return ((va * 16 + vb) * 16 + vc) * 16 + vd

/-- Single-character escapes `json.loads` accepts. -/
def unescapeChar : Char → Option Char
  | 'b' => some '\x08'
  | 'f' => some '\x0c'
  | 'n' => some '\n'
  | 'r' => some '\r'
  | 't' => some '\t'
  | '/' => some '/'
  | '\\' => some '\\'
  | '"' => some '"'
  | _ => none

/-- String-literal body after the opening quote, accumulator reversed.
Strict mode: raw control characters are rejected; `\uXXXX` escapes combine
surrogate pairs (a lone surrogate, which Python would keep, has no `Char`
counterpart and degrades to `Char.ofNat`'s default — no input in the
development reaches that corner). -/
def parseStrBodyF (acc : List Char) : Nat → List Char → Option (String × List Char)
  | 0, _ => none
  | _ + 1, [] => none
  | fuel + 1, c :: rest =>
    if c = '"' then some (String.mk acc.reverse, rest)
    else if c = '\\' then
      match rest with
      | 'u' :: a :: b :: c2 :: d :: rest1 =>
        match hexQuad a b c2 d with
        | none => none
        | some n =>
          if 0xd800 ≤ n && n ≤ 0xdbff then
            match rest1 with
            | '\\' :: 'u' :: e :: f :: g :: h :: rest2 =>
              match hexQuad e f g h with
              | some n2 =>
                if 0xdc00 ≤ n2 && n2 ≤ 0xdfff then
                  parseStrBodyF
                    (Char.ofNat (0x10000 + (n - 0xd800) * 0x400 + (n2 - 0xdc00)) :: acc)
                    fuel rest2
                else
                  parseStrBodyF (Char.ofNat n :: acc) fuel
                    ('\\' :: 'u' :: e :: f :: g :: h :: rest2)
              | none =>
                parseStrBodyF (Char.ofNat n :: acc) fuel
                  ('\\' :: 'u' :: e :: f :: g :: h :: rest2)
            | _ => parseStrBodyF (Char.ofNat n :: acc) fuel rest1
          else parseStrBodyF (Char.ofNat n :: acc) fuel rest1
      | e :: rest1 =>
        match unescapeChar e with
        | some ch => parseStrBodyF (ch :: acc) fuel rest1
        | none => none
      | [] => none
    else if c.toNat < 0x20 then none
    else parseStrBodyF (c :: acc) fuel rest

/-- `parseStrBodyF` with enough fuel for any input (every step consumes at
least one character). -/
def parseStrBody (acc : List Char) (cs : List Char) : Option (String × List Char) :=
  parseStrBodyF acc (cs.length + 1) cs

def takeDigits : List Char → List Char × List Char
  | c :: cs =>
    if c.isDigit then
      let pr := takeDigits cs
      (c :: pr.1, pr.2)
    else ([], c :: cs)
  | [] => ([], [])

def digitsToNat (ds : List Char) : Nat :=
  ds.foldl (fun a c => a * 10 + (c.toNat - '0'.toNat)) 0

/-- The digit run of an integer token after the optional sign (floats — a
following `.`, `e` or `E` — are outside the modelled grammar). -/
def parseNatTok (neg : Bool) (cs1 : List Char) : Option (Int × List Char) :=
  match takeDigits cs1 with
  | ([], _) => none
  | (ds, r) =>
    match r with
    | '.' :: _ => none
    | 'e' :: _ => none
    | 'E' :: _ => none
    | _ => some (if neg then -(digitsToNat ds : Int) else (digitsToNat ds : Int), r)

/-- An integer token: optional minus sign, then digits. -/
def parseIntTok (cs : List Char) : Option (Int × List Char) :=
  if cs.head? = some '-' then parseNatTok true cs.tail else parseNatTok false cs

/-- Python dict construction from parsed members: sequential `d[k] = v`. -/
def pyDict (ms : List (String × Json)) : List (String × Json) :=
  ms.foldl (fun acc kv => upsert acc kv.1 kv.2) []

/-- Dispatch on the first non-blank character of a value.  The branch
conditions are mutually exclusive, so testing the numeric class first is
observationally the same as Python's scanner order; the recursive array /
object parsers are taken as arguments so the dispatcher itself is not
recursive. -/
def parseTok (pE : List Char → Option (List Json × List Char))
    (pM : List Char → Option (List (String × Json) × List Char))
    (c : Char) (r : List Char) : Option (Json × List Char) :=
  if c = '-' || c.isDigit then
    match parseIntTok (c :: r) with
    | some (i, r') => some (.num i, r')
    | none => none
  else if c = 'n' then
    match r with
    | 'u' :: 'l' :: 'l' :: r' => some (.null, r')
    | _ => none
  else if c = 't' then
    match r with
    | 'r' :: 'u' :: 'e' :: r' => some (.bool true, r')
    | _ => none
  else if c = 'f' then
    match r with
    | 'a' :: 'l' :: 's' :: 'e' :: r' => some (.bool false, r')
    | _ => none
  else if c = '"' then
    match parseStrBody [] r with
    | some (s, r') => some (.str s, r')
    | none => none
  else if c = '[' then
    if (skipWs r).head? = some ']' then some (.arr [], (skipWs r).tail)
    else
      match pE (skipWs r) with
      | some (es, r'') => some (.arr es, r'')
      | none => none
  else if c = '\x7b' then
    if (skipWs r).head? = some '\x7d' then some (.obj [], (skipWs r).tail)
    else
      match pM (skipWs r) with
      | some (ms, r'') => some (.obj (pyDict ms), r'')
      | none => none
  else none

mutual

/-- One JSON value (fuelled recursive descent; each nesting level consumes
at least one character, so `length + 1` fuel always suffices). -/
def parseVal : Nat → List Char → Option (Json × List Char)
  | 0, _ => none
  | fuel + 1, cs =>
    match skipWs cs with
    | [] => none
    | c :: r => parseTok (parseElems fuel) (parseMembers fuel) c r

/-- One-or-more comma-separated array elements up to the closing bracket. -/
def parseElems : Nat → List Char → Option (List Json × List Char)
  | 0, _ => none
  | fuel + 1, cs =>
    match parseVal fuel cs with
    | none => none
    | some (v, r) =>
      match skipWs r with
      | ',' :: r' =>
        match parseElems fuel r' with
        | some (vs, r'') => some (v :: vs, r'')
        | none => none
      | ']' :: r' => some ([v], r')
      | _ => none

/-- One-or-more comma-separated object members up to the closing brace. -/
def parseMembers : Nat → List Char → Option (List (String × Json) × List Char)
  | 0, _ => none
  | fuel + 1, cs =>
    match skipWs cs with
    | '"' :: r =>
      match parseStrBody [] r with
      | none => none
      | some (key, r1) =>
        match skipWs r1 with
        | ':' :: r2 =>
          match parseVal fuel r2 with
          | none => none
          | some (v, r3) =>
            match skipWs r3 with
            | ',' :: r4 =>
              match parseMembers fuel r4 with
              | some (ms, r5) => some ((key, v) :: ms, r5)
              | none => none
            | '\x7d' :: r4 => some ([(key, v)], r4)
            | _ => none
        | _ => none
    | _ => none

end

/-- `json.loads`, `none` modelling `json.decoder.JSONDecodeError`. -/
def jsonLoads (s : String) : Option Json :=
  match parseVal (s.length + 1) s.data with
  | some (j, rest) => if (skipWs rest).isEmpty then some j else none
  | none => none

/-- `update_ids(id_mapping_dict, item_data)`:
`json.loads(re.sub(UUID_PATTERN, replace_id, json.dumps(item_data)))`. -/
def update_ids (m : List (String × String)) (p : Json) : Option Json :=
  jsonLoads (String.mk (applyScan (idSub m) (dumpsVal p)))

/-! ### Structural companions used by the `update_ids` proofs -/

def scanStr (σ : List Char → List Char) (s : String) : String :=
  String.mk (applyScan σ s.data)

mutual

/-- Applying the UUID substitution to every string and key of a value:
what `update_ids` amounts to when no match crosses a token boundary. -/
def substJson (σ : List Char → List Char) : Json → Json
  | .null => .null
  | .bool b => .bool b
  | .num n => .num n
  | .str s => .str (scanStr σ s)
  | .arr es => .arr (substArr σ es)
  | .obj ms => .obj (substObj σ ms)

def substArr (σ : List Char → List Char) : List Json → List Json
  | [] => []
  | e :: es => substJson σ e :: substArr σ es

def substObj (σ : List Char → List Char) :
    List (String × Json) → List (String × Json)
  | [] => []
  | (k, v) :: ms => (scanStr σ k, substJson σ v) :: substObj σ ms

end

mutual

/-- Every UUID-shaped window found in the strings and keys of a value:
"the ids present in the payload". -/
def idsOfVal : Json → List (List Char)
  | .null => []
  | .bool _ => []
  | .num _ => []
  | .str s => foundIds s.data
  | .arr es => idsOfArr es
  | .obj ms => idsOfObj ms

def idsOfArr : List Json → List (List Char)
  | [] => []
  | e :: es => idsOfVal e ++ idsOfArr es

def idsOfObj : List (String × Json) → List (List Char)
  | [] => []
  | (k, v) :: ms => foundIds k.data ++ idsOfVal v ++ idsOfObj ms

end

/-- A character `json.dumps` emits literally inside a string: printable
ASCII other than the quote and the backslash. -/
def safeChar (c : Char) : Bool :=
  0x20 ≤ c.toNat && c.toNat ≤ 0x7e && c ≠ '"' && c ≠ '\\'

def safeStr (s : String) : Bool := s.data.all safeChar

mutual

/-- Payloads whose strings and keys need no escape sequence when
serialized. -/
def safeJson : Json → Bool
  | .null => true
  | .bool _ => true
  | .num _ => true
  | .str s => safeStr s
  | .arr es => safeArr es
  | .obj ms => safeObj ms

def safeArr : List Json → Bool
  | [] => true
  | e :: es => safeJson e && safeArr es

def safeObj : List (String × Json) → Bool
  | [] => true
  | (k, v) :: ms => safeStr k && safeJson v && safeObj ms

end

mutual

/-- No object of the payload repeats a key (automatic for payloads that
came from Python dicts). -/
def nodupKeysJson : Json → Bool
  | .null => true
  | .bool _ => true
  | .num _ => true
  | .str _ => true
  | .arr es => nodupKeysArr es
  | .obj ms => decide ((ms.map Prod.fst).Nodup) && nodupKeysObj ms

def nodupKeysArr : List Json → Bool
  | [] => true
  | e :: es => nodupKeysJson e && nodupKeysArr es

def nodupKeysObj : List (String × Json) → Bool
  | [] => true
  | (_, v) :: ms => nodupKeysJson v && nodupKeysObj ms

end

/-! ### `ServerInfo.__getattr__` -/

/-- `ServerInfo.__getattr__(item)`: `self.data.get(item)` raises
`AttributeError` (modelled as `none`) exactly when the result is Python
`None` — i.e. the key is absent or its stored value is `null`. -/
def serverInfoGetattr (data : List (String × Json)) (item : String) : Option Json :=
  match alookup data item with
  | none => none
  | some Json.null => none
  | some v => some v

/-! ### Proof-support definitions for `update_ids` -/

/-- A character the UUID pattern can consume. -/
def uuidClassChar (c : Char) : Bool := isHexLower c || c == '-'

/-- The unique class profile of a UUID-shaped window. -/
def uuidProfile : List (Bool × Bool) :=
  (List.range 36).map (fun i => if hyphenPos i then (false, true) else (true, false))

/-- A substitution that maps every UUID-shaped window to a UUID-shaped
window (as every `replace_id` with UUID-shaped mapping values does). -/
def ShapeOk (σ : List Char → List Char) : Prop :=
  ∀ u, uuidShaped u = true → uuidShaped (σ u) = true

/-- The characters allowed to follow a serialized value (what the
round-trip lemma needs of the trailing input: end of input, or a comma or
closing bracket as `dumps` emits between and after values). -/
def parseDelim (rest : List Char) : Prop :=
  match rest with
  | [] => True
  | c :: _ => c = ',' ∨ c = ']' ∨ c = '\x7d'

mutual

/-- A fuel bound for the parser: enough `parseVal` unfoldings to consume
the serialized value. -/
def jsize : Json → Nat
  | .arr es => 2 + lsizeArr es
  | .obj ms => 2 + lsizeObj ms
  | .num _ => 1
  | .str _ => 1
  | .null => 1
  | .bool _ => 1

def lsizeArr : List Json → Nat
  | [] => 0
  | e :: es => jsize e + lsizeArr es

def lsizeObj : List (String × Json) → Nat
  | [] => 0
  | (_, v) :: ms => jsize v + lsizeObj ms

end

/-!
## Theorems

Helper lemmas first, then one theorem per claim (with its witness or
counterexample where required).
-/

/-- Writing a key always makes it readable with the written value
(the overwrite case and the fresh-key case of `upsert`). -/
theorem alookup_upsert_self {α : Type} (l : List (String × α)) (k : String) (v : α) :
    alookup (upsert l k v) k = some v := by
  induction l with
  | nil => simp [upsert, alookup]
  | cons hd tl ih =>
    by_cases h : hd.1 = k
    · simp [upsert, h, alookup]
    · simp [upsert, h, alookup, ih]

/-- Claim C6: an `ApiPath` verb URL absent from the constructor input falls
back to the closest previously specified verb — `get` alone defaults all
three remaining slots, `get, post` defaults `put` and `delete` to `post`,
`get, post, put` defaults `delete` to `put` — and a fully specified call
assigns each slot positionally; the slots are fixed by the constructor. -/
theorem claim6_api_path_fallback (g p u d : Option String) :
    ApiPath.build g [] = some ⟨g, g, g, g⟩ ∧
    ApiPath.build g [p] = some ⟨g, p, p, p⟩ ∧
    ApiPath.build g [p, u] = some ⟨g, p, u, u⟩ ∧
    ApiPath.build g [p, u, d] = some ⟨g, p, u, d⟩ := by
  refine ⟨rfl, rfl, rfl, rfl⟩

/-- Claim C10: `ServerInfo` attribute access fails (returns `none`,
modelling `AttributeError`) exactly when the key is absent or stored as
`null`, and returns every non-`null` value — including falsy ones such as
`false`, `0`, or the empty string, which are distinct from `Json.null`. -/
theorem claim10_server_info_getattr (data : List (String × Json)) (item : String) :
    (serverInfoGetattr data item = none ↔
      (alookup data item = none ∨ alookup data item = some Json.null)) ∧
    (∀ v : Json, serverInfoGetattr data item = some v ↔
      (alookup data item = some v ∧ v ≠ Json.null)) := by
  unfold serverInfoGetattr
  cases h : alookup data item with
  | none => simp
  | some v =>
    cases v <;> simp

/-- Claim C9: `get_filename` returns the raw `store_file` template, with
no placeholder substitution, whenever `item_name` or `item_id` is `None` —
including when exactly one of the two is present. -/
theorem claim9_get_filename_raw (sf : String) (e : Bool) (n i : Option String)
    (h : n = none ∨ i = none) : get_filename sf e n i = .ok sf := by
  rcases h with rfl | rfl
  · rfl
  · cases n <;> rfl

theorem claim9_witness :
    get_filename "template_{item_name}.json" false none (some "x") =
      .ok "template_{item_name}.json" :=
  claim9_get_filename_raw "template_{item_name}.json" false none (some "x") (Or.inl rfl)

/-- Claim C4 fails as stated: `filename_safe` keeps every whitespace
character, so a tab — outside the claimed output alphabet
`[A-Za-z0-9_ -]` — survives sanitization. -/
theorem claim4_counterexample :
    ¬ (∀ c ∈ (filename_safe "a\tb" false).data, specSafeChar c = true) := by
  decide

/-- Claim C4 (amended): every character of the sanitizer's output (with
lowercasing off) is a word character, a whitespace character, or a hyphen
— equivalently, each character outside those classes is replaced by `_` —
and the function is total, leaving the length unchanged. -/
theorem claim4_amended (s : String) :
    ((filename_safe s false).data.all
      (fun c => isPyWord c || isPySpace c || c == '-')) = true ∧
    (filename_safe s false).length = s.length := by
  have hdata : (filename_safe s false).data =
      s.data.map (fun x => if isPyWord x || isPySpace x || x == '-' then x else '_') := rfl
  constructor
  · rw [List.all_eq_true, hdata]
    intro c hc
    rcases List.mem_map.mp hc with ⟨x, _, rfl⟩
    by_cases h : (isPyWord x || isPySpace x || x == '-') = true
    · rwa [if_pos h]
    · rw [if_neg h]
      decide
  · show (filename_safe s false).data.length = s.data.length
    rw [hdata]
    exact List.length_map _ _

/-- Claim C5: `is_equal` compares the two payloads with the identifier and
excluded keys stripped at top level, serialized, and the serializations'
characters sorted — i.e. it holds exactly when the two serializations have
the same character multiset, a canonicalization strictly weaker than
structural equality. -/
theorem claim5_is_equal_multiset (idTag : Option String) (skip : List String)
    (dl dr : List (String × Json)) :
    is_equal idTag skip dl dr = true ↔
      (↑(dumpsVal (Json.obj (stripKeys idTag skip dl))) : Multiset Char) =
        ↑(dumpsVal (Json.obj (stripKeys idTag skip dr))) := by
  unfold is_equal sortChars
  rw [beq_iff_eq, Multiset.coe_eq_coe]
  have p1 := List.perm_insertionSort (α := Char) (· ≤ ·)
    (dumpsVal (Json.obj (stripKeys idTag skip dl)))
  have p2 := List.perm_insertionSort (α := Char) (· ≤ ·)
    (dumpsVal (Json.obj (stripKeys idTag skip dr)))
  constructor
  · intro h
    rw [h] at p1
    exact p1.symm.trans p2
  · intro h
    exact List.eq_of_perm_of_sorted (p1.trans (h.trans p2.symm))
      (List.sorted_insertionSort _ _) (List.sorted_insertionSort _ _)

/-- Claim C7: `save` on an empty (or `None`) payload returns `False` and
leaves the filesystem untouched — no file and no directory is created;
on a non-empty payload (with a well-formed filename template) it returns
`True` after writing the serialized payload at the computed path,
overwriting whatever was there. -/
theorem claim7_save (root node : String) (sp : List String) (sf : String)
    (data : Option Json) (e : Bool) (inm iid : Option String) (fs : Fs) :
    (is_empty data = some true →
      configSave root node sp sf data e inm iid fs = some (false, fs)) ∧
    (∀ payload, data = some payload → is_empty data = some false →
      ∀ fname, get_filename sf e inm iid = .ok fname →
      ∃ fs', configSave root node sp sf data e inm iid fs = some (true, fs') ∧
        alookup fs'.files (joinPath (root :: node :: sp) ++ "/" ++ fname) =
          some payload) := by
  constructor
  · intro h
    unfold configSave
    rw [h]
  · intro payload hdata hne fname hfn
    subst hdata
    unfold configSave
    rw [hne, hfn]
    exact ⟨_, rfl, alookup_upsert_self _ _ _⟩

theorem claim7_witness :
    (configSave "data" "n1" ["inventory"] "f_{item_name}.json" (some (Json.obj []))
      false (some "nm") (some "id1") ⟨[], []⟩ = some (false, ⟨[], []⟩)) ∧
    (∃ fs', configSave "data" "n1" ["inventory"] "f_{item_name}.json"
        (some (Json.obj [("a", Json.str "b")])) false (some "nm") (some "id1")
        ⟨[(joinPath ["data", "n1", "inventory"] ++ "/" ++ "f_nm.json", Json.null)], []⟩ =
          some (true, fs') ∧
      alookup fs'.files (joinPath ["data", "n1", "inventory"] ++ "/" ++ "f_nm.json") =
        some (Json.obj [("a", Json.str "b")])) :=
  ⟨(claim7_save "data" "n1" ["inventory"] "f_{item_name}.json" (some (Json.obj []))
      false (some "nm") (some "id1") ⟨[], []⟩).1 rfl,
   (claim7_save "data" "n1" ["inventory"] "f_{item_name}.json"
      (some (Json.obj [("a", Json.str "b")])) false (some "nm") (some "id1")
      ⟨[(joinPath ["data", "n1", "inventory"] ++ "/" ++ "f_nm.json", Json.null)], []⟩).2
    (Json.obj [("a", Json.str "b")]) rfl rfl "f_nm.json" (by decide)⟩

/-- Claim C1 fails as stated: the template `"prefix_{name (abc)(.*)}"`
applied to `"abcXYZ"` does not yield `"prefix_XYZ"` — the replacement is
the concatenation of *all* capture groups, and the first group `(abc)`
re-contributes the matched prefix.  The no-match half of the claim
(`"zzz"` giving `"prefix_"`) does hold. -/
theorem claim1_counterexample :
    extTemplateCall compileTable "prefix_{name (abc)(.*)}" "abcXYZ" ≠
      Except.ok "prefix_XYZ" ∧
    extTemplateCall compileTable "prefix_{name (abc)(.*)}" "zzz" =
      Except.ok "prefix_" := by
  decide

/-- Claim C1 (amended): the template `"prefix_{name (abc)(.*)}"` applied
to `"abcXYZ"` yields `"prefix_abcXYZ"` — the placeholder is replaced by
the concatenation of the regex's capture groups, which here reproduces the
whole match, `abc` included — and applied to `"zzz"`, which the regex does
not match, yields `"prefix_"` (the extracted value is empty). -/
theorem claim1_amended :
    extTemplateCall compileTable "prefix_{name (abc)(.*)}" "abcXYZ" =
      Except.ok "prefix_abcXYZ" ∧
    extTemplateCall compileTable "prefix_{name (abc)(.*)}" "zzz" =
      Except.ok "prefix_" := by
  decide

/-- Whenever `get_new_name` produces a name, the accompanying flag is the
`name_check_regex` search on that name. -/
theorem get_new_name_valid_eq (compile : String → Except PyErr PyRegex)
    (template : String) (data : List (String × Json)) (name_tag : Option String)
    (s : String) (v : Bool)
    (h : get_new_name compile template data name_tag = .ok (some s, v)) :
    v = name_check s := by
  unfold get_new_name at h
  cases htag : name_tag with
  | none =>
    simp only [htag] at h
    exact absurd h (by simp)
  | some tag =>
    simp only [htag] at h
    cases hlook : alookup data tag with
    | none =>
      simp only [hlook] at h
      exact absurd h (by simp)
    | some jv =>
      simp only [hlook] at h
      cases jv
      case str nm =>
        cases hcall : extTemplateCall compile template nm with
        | error e =>
          simp only [hcall] at h
          cases e <;> simp at h
        | ok out =>
          simp only [hcall] at h
          simp only [Except.ok.injEq, Prod.mk.injEq, Option.some.injEq] at h
          obtain ⟨rfl, h2⟩ := h
          exact h2.symm
      all_goals simp at h

/-- On newline-free strings the `name_check_regex` search is the plain
length-and-alphabet whitelist. -/
theorem name_check_iff_of_no_newline (s : String) (hnl : ∀ c ∈ s.data, c ≠ '\n') :
    name_check s = true ↔
      (1 ≤ s.length ∧ s.length ≤ 128 ∧ ∀ c ∈ s.data, nameBadChar c = false) := by
  have hlen : s.length = s.data.length := rfl
  unfold name_check nameLookahead nameBody
  rw [Bool.and_eq_true, List.any_eq_true, List.any_eq_true]
  constructor
  · rintro ⟨⟨k, hkmem, hk⟩, m, _, hm⟩
    simp only [Bool.and_eq_true, decide_eq_true_eq] at hk hm
    obtain ⟨⟨hk1, _⟩, hk3⟩ := hk
    obtain ⟨⟨_, hm2⟩, hm3⟩ := hm
    have hend : ∀ j : Nat, pyLineEnd s.data j = true → j = s.data.length := by
      intro j hj
      unfold pyLineEnd at hj
      simp only [Bool.or_eq_true, Bool.and_eq_true, beq_iff_eq] at hj
      rcases hj with hj1 | ⟨hj2a, hj2b⟩
      · exact hj1
      · exfalso
        have hjlt : j < s.data.length := by omega
        rw [List.getD_eq_getElem s.data ' ' hjlt] at hj2b
        exact hnl _ (List.getElem_mem hjlt) hj2b
    have hk129 : k < 129 := List.mem_range.mp hkmem
    have hkl := hend k hk3
    have hml := hend m hm3
    subst hml
    rw [List.take_length] at hm2
    refine ⟨?_, ?_, ?_⟩
    · rw [hlen]; omega
    · rw [hlen]; omega
    · intro c hc
      have := List.all_eq_true.mp hm2 c hc
      simpa using this
  · rintro ⟨h1, h2, h3⟩
    rw [hlen] at h1 h2
    constructor
    · refine ⟨s.data.length, List.mem_range.mpr (by omega), ?_⟩
      simp only [Bool.and_eq_true, decide_eq_true_eq]
      refine ⟨⟨h1, ?_⟩, ?_⟩
      · rw [List.take_length, List.all_eq_true]
        intro c hc
        simpa using hnl c hc
      · unfold pyLineEnd
        simp
    · refine ⟨s.data.length, List.mem_range.mpr (by omega), ?_⟩
      simp only [Bool.and_eq_true, decide_eq_true_eq]
      refine ⟨⟨h1, ?_⟩, ?_⟩
      · rw [List.take_length, List.all_eq_true]
        intro c hc
        simpa using h3 c hc
      · unfold pyLineEnd
        simp

/-- Claim C3 fails as stated: with template `"{name}"` and payload name
`"a\nb"`, the produced name has length 2–128 and contains none of the
excluded characters, yet `isValid` is `false` — the `^.{1,128}$` lookahead
of `name_check_regex` cannot cross the interior newline. -/
theorem claim3_counterexample :
    get_new_name compileTable "{name}" [("name", Json.str "a\nb")] (some "name") =
      Except.ok (some "a\nb", false) ∧
    (1 ≤ ("a\nb" : String).length ∧ ("a\nb" : String).length ≤ 128 ∧
      ∀ c ∈ ("a\nb" : String).data, nameBadChar c = false) := by
  decide

/-- Claim C3 (amended): for every produced name containing no newline
character, the `isValid` flag returned by `get_new_name` is `true` iff the
name has length between 1 and 128 and contains none of `&`, `<`, `>`,
`!`, `"`, and space.  (Newlines break both directions of the original
claim: an interior newline invalidates an otherwise-whitelisted name, and
a trailing newline lets a 129-character name validate.) -/
theorem claim3_amended (compile : String → Except PyErr PyRegex) (template : String)
    (data : List (String × Json)) (name_tag : Option String) (s : String) (valid : Bool)
    (hres : get_new_name compile template data name_tag = .ok (some s, valid))
    (hnl : ∀ c ∈ s.data, c ≠ '\n') :
    valid = true ↔
      (1 ≤ s.length ∧ s.length ≤ 128 ∧ ∀ c ∈ s.data, nameBadChar c = false) := by
  rw [get_new_name_valid_eq compile template data name_tag s valid hres]
  exact name_check_iff_of_no_newline s hnl

theorem claim3_witness :
    (true = true ↔
      (1 ≤ ("hello" : String).length ∧ ("hello" : String).length ≤ 128 ∧
        ∀ c ∈ ("hello" : String).data, nameBadChar c = false)) :=
  claim3_amended compileTable "{name}" [("name", Json.str "hello")] (some "name")
    "hello" true (by decide) (by decide)

/-- One-step unfolding of the template scan at positive fuel (the
automatic equation generator does not handle this definition). -/
theorem templScanF_succ (compile : String → Except PyErr PyRegex) (name : String)
    (fuel : Nat) (cs : List Char) (cnt : Nat) :
    templScanF compile name (fuel + 1) cs cnt =
      match matchNameAt cs with
      | some (rxOpt, rest) =>
        match placeholderValue compile name rxOpt with
        | .error e => .error e
        | .ok v =>
          match templScanF compile name fuel rest (cnt + 1) with
          | .error e => .error e
          | .ok (out, lmap, total) =>
            .ok ('\x7b' :: (("name_" ++ toString cnt).data ++ '\x7d' :: out),
                 ("name_" ++ toString cnt, v) :: lmap, total)
      | none =>
        match cs with
        | [] => .ok ([], [], cnt)
        | c :: rest =>
          match templScanF compile name fuel rest cnt with
          | .error e => .error e
          | .ok (out, lmap, total) => .ok (c :: out, lmap, total) := rfl

/-- One-step unfolding of the placeholder count at positive fuel. -/
theorem countPlaceholdersF_succ (fuel : Nat) (cs : List Char) :
    countPlaceholdersF (fuel + 1) cs =
      match matchNameAt cs with
      | some (_, rest) => countPlaceholdersF fuel rest + 1
      | none =>
        match cs with
        | [] => 0
        | _ :: rest => countPlaceholdersF fuel rest := rfl

/-- One-step unfolding of the first-placeholder search at positive fuel. -/
theorem firstPlaceholderRegexF_succ (fuel : Nat) (cs : List Char) :
    firstPlaceholderRegexF (fuel + 1) cs =
      match matchNameAt cs with
      | some (rxOpt, _) => some rxOpt
      | none =>
        match cs with
        | [] => none
        | _ :: rest => firstPlaceholderRegexF fuel rest := rfl

/-- A template the placeholder pattern never matches is scanned verbatim
with an empty label map. -/
theorem templScan_of_no_placeholder (compile : String → Except PyErr PyRegex)
    (name : String) :
    ∀ fuel cs cnt, cs.length < fuel → countPlaceholdersF fuel cs = 0 →
      templScanF compile name fuel cs cnt = .ok (cs, [], cnt) := by
  intro fuel
  induction fuel with
  | zero =>
    intro cs cnt h _
    omega
  | succ fuel ih =>
    intro cs cnt hlen hcount
    rw [templScanF_succ]
    cases hm : matchNameAt cs with
    | some pr =>
      exfalso
      obtain ⟨rxOpt, rest⟩ := pr
      have hstep : countPlaceholdersF (fuel + 1) cs = countPlaceholdersF fuel rest + 1 := by
        rw [countPlaceholdersF_succ, hm]
      rw [hstep] at hcount
      exact Nat.succ_ne_zero _ hcount
    | none =>
      cases cs with
      | nil => simp
      | cons c rest =>
        have hrest : countPlaceholdersF fuel rest = 0 := by
          simpa only [countPlaceholdersF_succ, hm] using hcount
        have hlen' : rest.length < fuel := by
          simp only [List.length_cons] at hlen
          omega
        simp [ih rest cnt hlen' hrest]

/-- When the first placeholder the scan reaches carries a regex that
compiles with no capturing group, the scan raises `KeyError`. -/
theorem templScan_groupless_first (compile : String → Except PyErr PyRegex)
    (name : String) (rx : String) (reg : PyRegex)
    (hc : compile rx = .ok reg) (hg : reg.groups = 0) :
    ∀ fuel cs cnt, firstPlaceholderRegexF fuel cs = some (some rx) →
      templScanF compile name fuel cs cnt = .error .keyError := by
  intro fuel
  induction fuel with
  | zero =>
    intro cs cnt h
    exact absurd h (by rw [show firstPlaceholderRegexF 0 cs = none from rfl]; simp)
  | succ fuel ih =>
    intro cs cnt h
    rw [templScanF_succ]
    cases hm : matchNameAt cs with
    | some pr =>
      obtain ⟨rxOpt, rest⟩ := pr
      have hrx : rxOpt = some rx := by
        simpa only [firstPlaceholderRegexF_succ, hm, Option.some.injEq] using h
      subst hrx
      simp [placeholderValue, hc, hg]
    | none =>
      cases cs with
      | nil =>
        have hnone : firstPlaceholderRegexF (fuel + 1) ([] : List Char) = none := by
          rw [firstPlaceholderRegexF_succ, hm]
        rw [hnone] at h
        cases h
      | cons c rest =>
        have h' : firstPlaceholderRegexF fuel rest = some (some rx) := by
          simpa only [firstPlaceholderRegexF_succ, hm] using h
        simp [ih rest cnt h']

/-- Claim C8: a rename template with no `{name}` placeholder, or whose
first placeholder's regex has no capturing group, makes `get_new_name`
return `(None, False)` rather than raise — the `KeyError` the template
engine throws for either malformation is caught internally.  (Stated for
resources whose name lookup yields a string or misses, the domain the
string embedding covers.) -/
theorem claim8_template_errors_contained (compile : String → Except PyErr PyRegex)
    (template : String) (data : List (String × Json)) (name_tag : Option String)
    (hname : name_tag = none ∨ ∃ tag, name_tag = some tag ∧
      (alookup data tag = none ∨ ∃ s, alookup data tag = some (Json.str s)))
    (hbad : countPlaceholders template = 0 ∨
      ∃ rx reg, firstPlaceholderRegex template = some (some rx) ∧
        compile rx = .ok reg ∧ reg.groups = 0) :
    get_new_name compile template data name_tag = .ok (none, false) := by
  have hcall : ∀ nm : String, extTemplateCall compile template nm = .error .keyError := by
    intro nm
    unfold extTemplateCall
    rcases hbad with h0 | ⟨rx, reg, h1, hc, hg⟩
    · rw [templScan_of_no_placeholder compile nm (template.length + 1) template.data 0
        (Nat.lt_succ_self _) h0]
      simp
    · rw [templScan_groupless_first compile nm rx reg hc hg (template.length + 1)
        template.data 0 h1]
  unfold get_new_name
  rcases hname with rfl | ⟨tag, rfl, hlook⟩
  · rfl
  · rcases hlook with hnone | ⟨s, hsome⟩
    · simp [hnone]
    · simp [hsome, hcall s]

theorem claim8_witness :
    get_new_name compileTable "no placeholder here" [("name", Json.str "x")]
      (some "name") = Except.ok (none, false) :=
  claim8_template_errors_contained compileTable "no placeholder here"
    [("name", Json.str "x")] (some "name")
    (Or.inr ⟨"name", rfl, Or.inr ⟨"x", rfl⟩⟩) (Or.inl (by decide))

/-! ### UUID scan: unfolding and shape facts -/

theorem applyScanF_zero (σ : List Char → List Char) (cs : List Char) :
    applyScanF σ 0 cs = cs := rfl

theorem applyScanF_succ (σ : List Char → List Char) (fuel : Nat) (cs : List Char) :
    applyScanF σ (fuel + 1) cs =
      if uuidShaped (cs.take 36) then σ (cs.take 36) ++ applyScanF σ fuel (cs.drop 36)
      else
        match cs with
        | [] => []
        | c :: rest => c :: applyScanF σ fuel rest := rfl

theorem foundIdsF_succ (fuel : Nat) (cs : List Char) :
    foundIdsF (fuel + 1) cs =
      if uuidShaped (cs.take 36) then cs.take 36 :: foundIdsF fuel (cs.drop 36)
      else
        match cs with
        | [] => []
        | _ :: rest => foundIdsF fuel rest := rfl

theorem uuidShaped_nil : uuidShaped ([] : List Char) = false := rfl

theorem profile_cons (c : Char) (cs : List Char) :
    profile (c :: cs) = charClass c :: profile cs := rfl

theorem profile_length (cs : List Char) : (profile cs).length = cs.length :=
  List.length_map _ _

theorem profile_append (a b : List Char) : profile (a ++ b) = profile a ++ profile b :=
  List.map_append _ _ _

theorem profile_take (n : Nat) (cs : List Char) :
    profile (cs.take n) = (profile cs).take n :=
  List.map_take _ _ _

theorem length_of_shaped {cs : List Char} (h : uuidShaped cs = true) :
    cs.length = 36 := by
  unfold uuidShaped shapedP at h
  rw [Bool.and_eq_true] at h
  have h1 := h.1
  rw [beq_iff_eq, profile_length] at h1
  exact h1

theorem length_ge_of_take_shaped {cs : List Char} (h : uuidShaped (cs.take 36) = true) :
    36 ≤ cs.length := by
  have := length_of_shaped h
  rw [List.length_take] at this
  omega

theorem applyScanF_fuel (σ : List Char → List Char) :
    ∀ fuel fuel' cs, cs.length ≤ fuel → cs.length ≤ fuel' →
      applyScanF σ fuel cs = applyScanF σ fuel' cs := by
  intro fuel
  induction fuel with
  | zero =>
    intro fuel' cs h _
    have hnil : cs = [] := List.eq_nil_of_length_eq_zero (Nat.le_zero.mp h)
    subst hnil
    cases fuel' with
    | zero => rfl
    | succ f => rw [applyScanF_succ]; simp [uuidShaped_nil, applyScanF_zero]
  | succ fuel ih =>
    intro fuel' cs h h'
    cases cs with
    | nil =>
      cases fuel' with
      | zero => rw [applyScanF_zero, applyScanF_succ]; simp [uuidShaped_nil]
      | succ f => rw [applyScanF_succ, applyScanF_succ]; simp [uuidShaped_nil]
    | cons c rest =>
      have hf' : ∃ f, fuel' = f + 1 := by
        cases fuel' with
        | zero => simp at h'
        | succ f => exact ⟨f, rfl⟩
      obtain ⟨f, rfl⟩ := hf'
      rw [applyScanF_succ, applyScanF_succ]
      by_cases hs : uuidShaped ((c :: rest).take 36) = true
      · rw [if_pos hs, if_pos hs]
        have h36 := length_ge_of_take_shaped hs
        simp only [List.length_cons] at h h'
        have hd1 : ((c :: rest).drop 36).length ≤ fuel := by
          rw [List.length_drop]; simp only [List.length_cons]; omega
        have hd2 : ((c :: rest).drop 36).length ≤ f := by
          rw [List.length_drop]; simp only [List.length_cons]; omega
        rw [ih f _ hd1 hd2]
      · rw [if_neg hs, if_neg hs]
        simp only [List.length_cons] at h h'
        show c :: applyScanF σ fuel rest = c :: applyScanF σ f rest
        rw [ih f rest (by omega) (by omega)]

theorem foundIdsF_fuel :
    ∀ fuel fuel' cs, cs.length ≤ fuel → cs.length ≤ fuel' →
      foundIdsF fuel cs = foundIdsF fuel' cs := by
  intro fuel
  induction fuel with
  | zero =>
    intro fuel' cs h _
    have hnil : cs = [] := List.eq_nil_of_length_eq_zero (Nat.le_zero.mp h)
    subst hnil
    cases fuel' with
    | zero => rfl
    | succ f =>
      rw [foundIdsF_succ]
      simp [uuidShaped_nil, show foundIdsF 0 ([] : List Char) = [] from rfl]
  | succ fuel ih =>
    intro fuel' cs h h'
    cases cs with
    | nil =>
      cases fuel' with
      | zero => rw [foundIdsF_succ]; simp [uuidShaped_nil]; rfl
      | succ f => rw [foundIdsF_succ, foundIdsF_succ]; simp [uuidShaped_nil]
    | cons c rest =>
      have hf' : ∃ f, fuel' = f + 1 := by
        cases fuel' with
        | zero => simp at h'
        | succ f => exact ⟨f, rfl⟩
      obtain ⟨f, rfl⟩ := hf'
      rw [foundIdsF_succ, foundIdsF_succ]
      by_cases hs : uuidShaped ((c :: rest).take 36) = true
      · rw [if_pos hs, if_pos hs]
        have h36 := length_ge_of_take_shaped hs
        simp only [List.length_cons] at h h'
        have hd1 : ((c :: rest).drop 36).length ≤ fuel := by
          rw [List.length_drop]; simp only [List.length_cons]; omega
        have hd2 : ((c :: rest).drop 36).length ≤ f := by
          rw [List.length_drop]; simp only [List.length_cons]; omega
        rw [ih f _ hd1 hd2]
      · rw [if_neg hs, if_neg hs]
        simp only [List.length_cons] at h h'
        show foundIdsF fuel rest = foundIdsF f rest
        rw [ih f rest (by omega) (by omega)]

/-- Canonical unfolding of the scan (independent of the fuel plumbing). -/
theorem applyScan_eq (σ : List Char → List Char) (cs : List Char) :
    applyScan σ cs =
      if uuidShaped (cs.take 36) then σ (cs.take 36) ++ applyScan σ (cs.drop 36)
      else
        match cs with
        | [] => []
        | c :: rest => c :: applyScan σ rest := by
  unfold applyScan
  cases cs with
  | nil => simp [applyScanF_zero, uuidShaped_nil]
  | cons c rest =>
    rw [show (c :: rest).length = rest.length + 1 from rfl, applyScanF_succ]
    by_cases hs : uuidShaped ((c :: rest).take 36) = true
    · rw [if_pos hs, if_pos hs]
      congr 1
      apply applyScanF_fuel
      · rw [List.length_drop]; simp only [List.length_cons]; omega
      · exact le_rfl
    · rw [if_neg hs, if_neg hs]

/-- Canonical unfolding of the match collector. -/
theorem foundIds_eq (cs : List Char) :
    foundIds cs =
      if uuidShaped (cs.take 36) then cs.take 36 :: foundIds (cs.drop 36)
      else
        match cs with
        | [] => []
        | _ :: rest => foundIds rest := by
  unfold foundIds
  cases cs with
  | nil => simp [uuidShaped_nil]; rfl
  | cons c rest =>
    rw [show (c :: rest).length = rest.length + 1 from rfl, foundIdsF_succ]
    by_cases hs : uuidShaped ((c :: rest).take 36) = true
    · rw [if_pos hs, if_pos hs]
      congr 1
      apply foundIdsF_fuel
      · rw [List.length_drop]; simp only [List.length_cons]; omega
      · exact le_rfl
    · rw [if_neg hs, if_neg hs]

theorem charClass_of_hyphen {x : Char} (h : (x == '-') = true) :
    charClass x = (false, true) := by
  rw [beq_iff_eq] at h
  subst h
  decide

theorem charClass_of_hex {x : Char} (h : isHexLower x = true) :
    charClass x = (true, false) := by
  have hne : x ≠ '-' := by
    intro hx
    rw [hx] at h
    exact absurd h (by decide)
  unfold charClass
  rw [h]
  simp [hne]

/-- Pointwise extensionality through `getD`. -/
theorem list_ext_getD {α : Type} (d : α) : ∀ (l1 l2 : List α), l1.length = l2.length →
    (∀ i, i < l1.length → l1.getD i d = l2.getD i d) → l1 = l2 := by
  intro l1
  induction l1 with
  | nil =>
    intro l2 h _
    exact (List.eq_nil_of_length_eq_zero h.symm).symm
  | cons a t ih =>
    intro l2 hlen h
    cases l2 with
    | nil => simp at hlen
    | cons b t2 =>
      have h0 : a = b := by simpa using h 0 (by simp)
      have ht : t = t2 := by
        refine ih t2 (by simpa using hlen) ?_
        intro i hi
        simpa using h (i + 1) (by simpa using Nat.succ_lt_succ hi)
      rw [h0, ht]

theorem uuidProfile_length : uuidProfile.length = 36 := by
  unfold uuidProfile
  simp

theorem uuidProfile_getD {i : Nat} (h : i < 36) :
    uuidProfile.getD i (false, false) =
      if hyphenPos i then ((false : Bool), (true : Bool)) else (true, false) := by
  have hlen : i < uuidProfile.length := by rw [uuidProfile_length]; exact h
  rw [List.getD_eq_getElem _ _ hlen]
  unfold uuidProfile
  simp [h]

/-- A shaped window's class profile is the unique UUID profile. -/
theorem profile_of_shaped {cs : List Char} (h : uuidShaped cs = true) :
    profile cs = uuidProfile := by
  have hlen : cs.length = 36 := length_of_shaped h
  unfold uuidShaped shapedP at h
  rw [Bool.and_eq_true, List.all_eq_true] at h
  obtain ⟨-, h2⟩ := h
  apply list_ext_getD (false, false)
  · rw [profile_length, hlen, uuidProfile_length]
  · intro i hi
    rw [profile_length, hlen] at hi
    have hii := h2 i (List.mem_range.mpr hi)
    have hic : i < cs.length := by omega
    have hip : i < (profile cs).length := by rw [profile_length]; omega
    have hget : (profile cs).getD i (false, false) = charClass (cs.getD i ' ') := by
      rw [List.getD_eq_getElem _ _ hip, List.getD_eq_getElem _ _ hic]
      unfold profile
      simp
    rw [hget, uuidProfile_getD hi]
    rw [hget] at hii
    by_cases hh : hyphenPos i = true
    · rw [if_pos hh]
      rw [if_pos hh] at hii
      exact charClass_of_hyphen (by simpa [charClass] using hii)
    · rw [if_neg hh]
      rw [if_neg hh] at hii
      exact charClass_of_hex (by simpa [charClass] using hii)

theorem all_class_of_shaped {cs : List Char} (h : uuidShaped cs = true) :
    ∀ c ∈ cs, uuidClassChar c = true := by
  intro c hc
  have hmem : charClass c ∈ profile cs := List.mem_map_of_mem _ hc
  rw [profile_of_shaped h] at hmem
  have hall : ∀ p ∈ uuidProfile, (p.1 || p.2) = true := by decide
  have := hall _ hmem
  simpa [uuidClassChar, charClass] using this

/-- A non-class character at the head blocks a match there. -/
theorem applyScan_cons_notclass (σ : List Char → List Char) {c : Char}
    (hc : uuidClassChar c = false) (cs : List Char) :
    applyScan σ (c :: cs) = c :: applyScan σ cs := by
  rw [applyScan_eq]
  have hns : ¬ uuidShaped ((c :: cs).take 36) = true := by
    intro hs
    have hmem : c ∈ (c :: cs).take 36 := by
      rw [List.take_succ_cons]
      exact List.mem_cons_self _ _
    have := all_class_of_shaped hs c hmem
    rw [this] at hc
    cases hc
  rw [if_neg hns]

theorem applyScan_nil (σ : List Char → List Char) : applyScan σ [] = [] := rfl

/-- Short inputs contain no window and are left unchanged. -/
theorem applyScan_of_small (σ : List Char → List Char) :
    ∀ cs : List Char, cs.length < 36 → applyScan σ cs = cs := by
  intro cs
  induction cs with
  | nil => intro _; rfl
  | cons c rest ih =>
    intro h
    rw [applyScan_eq]
    have hns : ¬ uuidShaped ((c :: rest).take 36) = true := by
      intro hs
      have := length_of_shaped hs
      rw [List.length_take] at this
      omega
    rw [if_neg hns]
    simp only [List.length_cons] at h
    show c :: applyScan σ rest = c :: rest
    rw [ih (by omega)]

/-- The scan preserves each position's character class: matched windows
are replaced by windows of the same (unique) profile, the rest verbatim. -/
theorem applyScan_profile (σ : List Char → List Char) (hσ : ShapeOk σ) :
    ∀ cs, profile (applyScan σ cs) = profile cs := by
  have main : ∀ n cs, cs.length ≤ n → profile (applyScan σ cs) = profile cs := by
    intro n
    induction n with
    | zero =>
      intro cs h
      have hnil : cs = [] := List.eq_nil_of_length_eq_zero (Nat.le_zero.mp h)
      subst hnil
      rfl
    | succ n ih =>
      intro cs hlen
      rw [applyScan_eq]
      by_cases hs : uuidShaped (cs.take 36) = true
      · rw [if_pos hs]
        have h36 := length_ge_of_take_shaped hs
        have hdrop : (cs.drop 36).length ≤ n := by rw [List.length_drop]; omega
        calc profile (σ (cs.take 36) ++ applyScan σ (cs.drop 36))
            = profile (σ (cs.take 36)) ++ profile (applyScan σ (cs.drop 36)) :=
              profile_append _ _
          _ = uuidProfile ++ profile (cs.drop 36) := by
              rw [profile_of_shaped (hσ _ hs), ih _ hdrop]
          _ = profile (cs.take 36) ++ profile (cs.drop 36) := by
              rw [profile_of_shaped hs]
          _ = profile cs := by rw [← profile_append, List.take_append_drop]
      · rw [if_neg hs]
        cases cs with
        | nil => rfl
        | cons c rest =>
          show profile (c :: applyScan σ rest) = profile (c :: rest)
          simp only [List.length_cons] at hlen
          rw [profile_cons, profile_cons, ih rest (by omega)]
  intro cs
  exact main cs.length cs le_rfl

theorem applyScan_length (σ : List Char → List Char) (hσ : ShapeOk σ) (cs : List Char) :
    (applyScan σ cs).length = cs.length := by
  have := congrArg List.length (applyScan_profile σ hσ cs)
  rwa [profile_length, profile_length] at this

/-- Two scans compose into the scan of the composed substitution: the
replaced windows of the first scan are exactly the windows the second
scan matches again. -/
theorem applyScan_comp (σ₁ σ₂ : List Char → List Char) (hσ : ShapeOk σ₁) :
    ∀ cs, applyScan σ₂ (applyScan σ₁ cs) = applyScan (fun u => σ₂ (σ₁ u)) cs := by
  have main : ∀ n cs, cs.length ≤ n →
      applyScan σ₂ (applyScan σ₁ cs) = applyScan (fun u => σ₂ (σ₁ u)) cs := by
    intro n
    induction n with
    | zero =>
      intro cs h
      have hnil : cs = [] := List.eq_nil_of_length_eq_zero (Nat.le_zero.mp h)
      subst hnil
      rfl
    | succ n ih =>
      intro cs hlen
      by_cases hs : uuidShaped (cs.take 36) = true
      · rw [applyScan_eq σ₁, if_pos hs, applyScan_eq (fun u => σ₂ (σ₁ u)), if_pos hs]
        have hu : uuidShaped (σ₁ (cs.take 36)) = true := hσ _ hs
        have hlen36 : (σ₁ (cs.take 36)).length = 36 := length_of_shaped hu
        rw [applyScan_eq σ₂, List.take_left' hlen36, if_pos hu, List.drop_left' hlen36]
        have h36 := length_ge_of_take_shaped hs
        have hdrop : (cs.drop 36).length ≤ n := by rw [List.length_drop]; omega
        rw [ih _ hdrop]
      · rw [applyScan_eq σ₁, if_neg hs, applyScan_eq (fun u => σ₂ (σ₁ u)), if_neg hs]
        cases cs with
        | nil => rfl
        | cons c rest =>
          show applyScan σ₂ (c :: applyScan σ₁ rest) =
            c :: applyScan (fun u => σ₂ (σ₁ u)) rest
          rw [applyScan_eq σ₂]
          have hcond : uuidShaped ((c :: applyScan σ₁ rest).take 36) =
              uuidShaped ((c :: rest).take 36) := by
            show shapedP (profile ((c :: applyScan σ₁ rest).take 36)) =
              shapedP (profile ((c :: rest).take 36))
            rw [profile_take, profile_take, profile_cons, profile_cons,
              applyScan_profile σ₁ hσ]
          rw [if_neg (by rw [hcond]; exact hs)]
          simp only [List.length_cons] at hlen
          show c :: applyScan σ₂ (applyScan σ₁ rest) =
            c :: applyScan (fun u => σ₂ (σ₁ u)) rest
          rw [ih rest (by omega)]
  intro cs
  exact main cs.length cs le_rfl

/-- Every window the scan collects is UUID-shaped. -/
theorem foundIds_shaped :
    ∀ cs, ∀ u ∈ foundIds cs, uuidShaped u = true := by
  have main : ∀ n cs, cs.length ≤ n → ∀ u ∈ foundIds cs, uuidShaped u = true := by
    intro n
    induction n with
    | zero =>
      intro cs h
      have hnil : cs = [] := List.eq_nil_of_length_eq_zero (Nat.le_zero.mp h)
      subst hnil
      intro u hu
      rw [foundIds_eq] at hu
      simp [uuidShaped_nil] at hu
    | succ n ih =>
      intro cs hlen u hu
      rw [foundIds_eq] at hu
      by_cases hs : uuidShaped (cs.take 36) = true
      · rw [if_pos hs] at hu
        rcases List.mem_cons.mp hu with rfl | hu'
        · exact hs
        · have h36 := length_ge_of_take_shaped hs
          exact ih (cs.drop 36) (by rw [List.length_drop]; omega) u hu'
      · rw [if_neg hs] at hu
        cases cs with
        | nil => simp at hu
        | cons c rest =>
          simp only [List.length_cons] at hlen
          exact ih rest (by omega) u hu
  intro cs
  exact main cs.length cs le_rfl

/-- A substitution that fixes every collected window leaves the text
unchanged. -/
theorem applyScan_id (σ : List Char → List Char) :
    ∀ cs, (∀ u ∈ foundIds cs, σ u = u) → applyScan σ cs = cs := by
  have main : ∀ n cs, cs.length ≤ n → (∀ u ∈ foundIds cs, σ u = u) →
      applyScan σ cs = cs := by
    intro n
    induction n with
    | zero =>
      intro cs h _
      have hnil : cs = [] := List.eq_nil_of_length_eq_zero (Nat.le_zero.mp h)
      subst hnil
      rfl
    | succ n ih =>
      intro cs hlen hfix
      rw [applyScan_eq]
      by_cases hs : uuidShaped (cs.take 36) = true
      · rw [if_pos hs]
        have hids : foundIds cs = cs.take 36 :: foundIds (cs.drop 36) := by
          rw [foundIds_eq, if_pos hs]
        have hhd : σ (cs.take 36) = cs.take 36 := by
          apply hfix
          rw [hids]
          exact List.mem_cons_self _ _
        have h36 := length_ge_of_take_shaped hs
        have htl : applyScan σ (cs.drop 36) = cs.drop 36 := by
          apply ih _ (by rw [List.length_drop]; omega)
          intro u hu
          apply hfix
          rw [hids]
          exact List.mem_cons_of_mem _ hu
        rw [hhd, htl, List.take_append_drop]
      · rw [if_neg hs]
        cases cs with
        | nil => rfl
        | cons c rest =>
          have hids : foundIds (c :: rest) = foundIds rest := by
            rw [foundIds_eq, if_neg hs]
          simp only [List.length_cons] at hlen
          show c :: applyScan σ rest = c :: rest
          rw [ih rest (by omega) (fun u hu => hfix u (by rw [hids]; exact hu))]
  intro cs
  exact main cs.length cs le_rfl

/-- The scan distributes over an append whose right part starts with a
character outside the UUID classes: no window crosses the boundary. -/
theorem applyScan_append (σ : List Char → List Char)
    (b : List Char) (hb : ∀ c, b.head? = some c → uuidClassChar c = false) :
    ∀ a, applyScan σ (a ++ b) = applyScan σ a ++ applyScan σ b := by
  cases b with
  | nil =>
    intro a
    simp [applyScan_nil]
  | cons c0 b' =>
    have hc0 : uuidClassChar c0 = false := hb c0 rfl
    have main : ∀ n a, a.length ≤ n →
        applyScan σ (a ++ c0 :: b') = applyScan σ a ++ applyScan σ (c0 :: b') := by
      intro n
      induction n with
      | zero =>
        intro a h
        have hnil : a = [] := List.eq_nil_of_length_eq_zero (Nat.le_zero.mp h)
        subst hnil
        simp [applyScan_nil]
      | succ n ih =>
        intro a hlen
        rcases Nat.lt_or_ge a.length 36 with hsmall | hbig
        · -- the left part is shorter than a window: a crossing window
          -- would contain the non-class boundary character
          have hnsa : ¬ uuidShaped (a.take 36) = true := by
            intro hs
            have := length_of_shaped hs
            rw [List.length_take] at this
            omega
          have hns : ¬ uuidShaped ((a ++ c0 :: b').take 36) = true := by
            intro hs
            have hlt : a.length < (a ++ c0 :: b').length := by
              rw [List.length_append]
              simp
            have hlt2 : a.length < ((a ++ c0 :: b').take 36).length := by
              rw [List.length_take]
              exact lt_min hsmall hlt
            have hget : ((a ++ c0 :: b').take 36)[a.length] = c0 := by
              rw [List.getElem_take]
              rw [List.getElem_append_right (Nat.le_refl _)]
              simp
            have hmem : c0 ∈ (a ++ c0 :: b').take 36 := by
              have hm := List.getElem_mem hlt2
              rwa [hget] at hm
            have := all_class_of_shaped hs c0 hmem
            rw [this] at hc0
            cases hc0
          cases a with
          | nil => simp [applyScan_nil]
          | cons c rest =>
            rw [show ((c :: rest) ++ c0 :: b') = c :: (rest ++ c0 :: b') from rfl]
            rw [applyScan_eq σ (c :: (rest ++ c0 :: b'))]
            rw [if_neg (by
              rw [show (c :: (rest ++ c0 :: b')) = ((c :: rest) ++ c0 :: b') from rfl]
              exact hns)]
            rw [applyScan_eq σ (c :: rest), if_neg hnsa]
            simp only [List.length_cons] at hlen
            show c :: applyScan σ (rest ++ c0 :: b') =
              (c :: applyScan σ rest) ++ applyScan σ (c0 :: b')
            rw [ih rest (by omega)]
            rfl
        · -- the left part covers the window region entirely
          have htake : (a ++ c0 :: b').take 36 = a.take 36 :=
            List.take_append_of_le_length hbig
          have hdrop : (a ++ c0 :: b').drop 36 = a.drop 36 ++ c0 :: b' :=
            List.drop_append_of_le_length hbig
          rw [applyScan_eq σ (a ++ c0 :: b'), applyScan_eq σ a, htake]
          by_cases hs : uuidShaped (a.take 36) = true
          · rw [if_pos hs, if_pos hs, hdrop]
            have hdl : (a.drop 36).length ≤ n := by
              rw [List.length_drop]; omega
            rw [ih _ hdl, List.append_assoc]
          · rw [if_neg hs, if_neg hs]
            cases a with
            | nil => simp at hbig
            | cons c rest =>
              simp only [List.length_cons] at hlen
              show c :: applyScan σ (rest ++ c0 :: b') =
                (c :: applyScan σ rest) ++ applyScan σ (c0 :: b')
              rw [ih rest (by omega)]
              rfl
    intro a
    exact main a.length a le_rfl

theorem profile_drop (n : Nat) (cs : List Char) :
    profile (cs.drop n) = (profile cs).drop n :=
  List.map_drop _ _ _

/-- On inputs with the same class profile, a substitution injective on the
collected windows makes the scan injective: the windows line up position
by position, and everything outside them is copied. -/
theorem applyScan_inj (σ : List Char → List Char) (hσ : ShapeOk σ) :
    ∀ cs1 cs2, profile cs1 = profile cs2 →
      (∀ u1 ∈ foundIds cs1, ∀ u2 ∈ foundIds cs2, σ u1 = σ u2 → u1 = u2) →
      applyScan σ cs1 = applyScan σ cs2 → cs1 = cs2 := by
  have main : ∀ n cs1 cs2, cs1.length ≤ n → profile cs1 = profile cs2 →
      (∀ u1 ∈ foundIds cs1, ∀ u2 ∈ foundIds cs2, σ u1 = σ u2 → u1 = u2) →
      applyScan σ cs1 = applyScan σ cs2 → cs1 = cs2 := by
    intro n
    induction n with
    | zero =>
      intro cs1 cs2 hlen hprof _ _
      have h1 : cs1 = [] := List.eq_nil_of_length_eq_zero (Nat.le_zero.mp hlen)
      subst h1
      have h2 : cs2.length = 0 := by
        have := congrArg List.length hprof
        rw [profile_length, profile_length] at this
        omega
      exact (List.eq_nil_of_length_eq_zero h2).symm
    | succ n ih =>
      intro cs1 cs2 hlen hprof hinj heq
      have hcond : uuidShaped (cs1.take 36) = uuidShaped (cs2.take 36) := by
        show shapedP (profile (cs1.take 36)) = shapedP (profile (cs2.take 36))
        rw [profile_take, profile_take, hprof]
      by_cases hs : uuidShaped (cs1.take 36) = true
      · have hs2 : uuidShaped (cs2.take 36) = true := by rw [← hcond]; exact hs
        rw [applyScan_eq σ cs1, if_pos hs, applyScan_eq σ cs2, if_pos hs2] at heq
        have hl1 : (σ (cs1.take 36)).length = 36 := length_of_shaped (hσ _ hs)
        have hl2 : (σ (cs2.take 36)).length = 36 := length_of_shaped (hσ _ hs2)
        obtain ⟨hheads, htails⟩ := List.append_inj heq (by rw [hl1, hl2])
        have hid1 : foundIds cs1 = cs1.take 36 :: foundIds (cs1.drop 36) := by
          rw [foundIds_eq, if_pos hs]
        have hid2 : foundIds cs2 = cs2.take 36 :: foundIds (cs2.drop 36) := by
          rw [foundIds_eq, if_pos hs2]
        have hu : cs1.take 36 = cs2.take 36 := by
          apply hinj
          · rw [hid1]; exact List.mem_cons_self _ _
          · rw [hid2]; exact List.mem_cons_self _ _
          · exact hheads
        have hdropprof : profile (cs1.drop 36) = profile (cs2.drop 36) := by
          rw [profile_drop, profile_drop, hprof]
        have h36 := length_ge_of_take_shaped hs
        have hlen' : (cs1.drop 36).length ≤ n := by rw [List.length_drop]; omega
        have hinj' : ∀ u1 ∈ foundIds (cs1.drop 36), ∀ u2 ∈ foundIds (cs2.drop 36),
            σ u1 = σ u2 → u1 = u2 :=
          fun u1 hu1 u2 hu2 =>
            hinj u1 (by rw [hid1]; exact List.mem_cons_of_mem _ hu1)
              u2 (by rw [hid2]; exact List.mem_cons_of_mem _ hu2)
        have hrec : cs1.drop 36 = cs2.drop 36 := ih _ _ hlen' hdropprof hinj' htails
        calc cs1 = cs1.take 36 ++ cs1.drop 36 := (List.take_append_drop _ _).symm
          _ = cs2.take 36 ++ cs2.drop 36 := by rw [hu, hrec]
          _ = cs2 := List.take_append_drop _ _
      · have hs2 : ¬ uuidShaped (cs2.take 36) = true := by rw [← hcond]; exact hs
        cases cs1 with
        | nil =>
          have h2 : cs2.length = 0 := by
            have := congrArg List.length hprof
            rw [profile_length, profile_length] at this
            simp only [List.length_nil] at this
            omega
          exact (List.eq_nil_of_length_eq_zero h2).symm
        | cons c1 r1 =>
          cases cs2 with
          | nil =>
            have := congrArg List.length hprof
            rw [profile_length, profile_length] at this
            simp at this
          | cons c2 r2 =>
            rw [applyScan_eq σ (c1 :: r1), if_neg hs, applyScan_eq σ (c2 :: r2),
              if_neg hs2] at heq
            have heq' : c1 :: applyScan σ r1 = c2 :: applyScan σ r2 := heq
            injection heq' with hc hrest
            have hid1 : foundIds (c1 :: r1) = foundIds r1 := by
              rw [foundIds_eq, if_neg hs]
            have hid2 : foundIds (c2 :: r2) = foundIds r2 := by
              rw [foundIds_eq, if_neg hs2]
            have hprof' : profile r1 = profile r2 := by
              rw [profile_cons, profile_cons] at hprof
              exact (List.cons.injEq _ _ _ _ ▸ hprof).2
            simp only [List.length_cons] at hlen
            have := ih r1 r2 (by omega) hprof'
              (fun u1 hu1 u2 hu2 =>
                hinj u1 (by rw [hid1]; exact hu1) u2 (by rw [hid2]; exact hu2)) hrest
            rw [hc, this]
  intro cs1 cs2
  exact main cs1.length cs1 cs2 le_rfl

/-! ### Character-class and safety facts -/

theorem class_safe {c : Char} (h : uuidClassChar c = true) : safeChar c = true := by
  unfold uuidClassChar isHexLower at h
  simp only [Bool.or_eq_true, Bool.and_eq_true, decide_eq_true_eq, beq_iff_eq] at h
  unfold safeChar
  simp only [Bool.and_eq_true, decide_eq_true_eq]
  rcases h with h1 | h2
  · have hne1 : c ≠ '"' := by
      intro hc
      rw [hc] at h1
      revert h1
      decide
    have hne2 : c ≠ '\\' := by
      intro hc
      rw [hc] at h1
      revert h1
      decide
    refine ⟨⟨⟨by omega, by omega⟩, hne1⟩, hne2⟩
  · subst h2
    refine ⟨⟨⟨by decide, by decide⟩, by decide⟩, by decide⟩

theorem applyScan_all_safe (σ : List Char → List Char) (hσ : ShapeOk σ) :
    ∀ cs, (∀ c ∈ cs, safeChar c = true) →
      ∀ c ∈ applyScan σ cs, safeChar c = true := by
  have main : ∀ n cs, cs.length ≤ n → (∀ c ∈ cs, safeChar c = true) →
      ∀ c ∈ applyScan σ cs, safeChar c = true := by
    intro n
    induction n with
    | zero =>
      intro cs h hsafe c hc
      have hnil : cs = [] := List.eq_nil_of_length_eq_zero (Nat.le_zero.mp h)
      subst hnil
      simp [applyScan_nil] at hc
    | succ n ih =>
      intro cs hlen hsafe c hc
      rw [applyScan_eq] at hc
      by_cases hs : uuidShaped (cs.take 36) = true
      · rw [if_pos hs] at hc
        rcases List.mem_append.mp hc with hin | hin
        · exact class_safe (all_class_of_shaped (hσ _ hs) c hin)
        · have h36 := length_ge_of_take_shaped hs
          exact ih (cs.drop 36) (by rw [List.length_drop]; omega)
            (fun x hx => hsafe x (List.drop_subset _ _ hx)) c hin
      · rw [if_neg hs] at hc
        cases cs with
        | nil => simp at hc
        | cons c0 rest =>
          rcases List.mem_cons.mp hc with rfl | hin
          · exact hsafe c (List.mem_cons_self _ _)
          · simp only [List.length_cons] at hlen
            exact ih rest (by omega)
              (fun x hx => hsafe x (List.mem_cons_of_mem _ hx)) c hin
  intro cs
  exact main cs.length cs le_rfl

/-- A safe character serializes to itself. -/
theorem escapeChar_safe {c : Char} (h : safeChar c = true) : escapeChar c = [c] := by
  unfold safeChar at h
  simp only [Bool.and_eq_true, decide_eq_true_eq] at h
  obtain ⟨⟨⟨h1, h2⟩, h3⟩, h4⟩ := h
  have hval : ∀ x : Char, c = x → 32 ≤ x.toNat ∧ x.toNat ≤ 126 := by
    intro x hx
    rw [← hx]
    exact ⟨h1, h2⟩
  unfold escapeChar
  rw [if_neg h3, if_neg h4]
  rw [if_neg (fun hc => by have := (hval _ hc).1; revert this; decide)]
  rw [if_neg (fun hc => by have := (hval _ hc).1; revert this; decide)]
  rw [if_neg (fun hc => by have := (hval _ hc).1; revert this; decide)]
  rw [if_neg (fun hc => by have := (hval _ hc).1; revert this; decide)]
  rw [if_neg (fun hc => by have := (hval _ hc).1; revert this; decide)]
  rw [if_pos (by simp only [Bool.and_eq_true, decide_eq_true_eq]; exact ⟨h1, h2⟩)]

theorem escapeList_safe : ∀ cs : List Char, (∀ c ∈ cs, safeChar c = true) →
    escapeList cs = cs := by
  intro cs
  induction cs with
  | nil => intro _; rfl
  | cons c rest ih =>
    intro h
    show escapeChar c ++ escapeList rest = c :: rest
    rw [escapeChar_safe (h c (List.mem_cons_self _ _)),
      ih (fun x hx => h x (List.mem_cons_of_mem _ hx))]
    rfl

/-! ### Decimal digits of an integer -/

theorem natCharsF_succ (fuel n : Nat) :
    natCharsF (fuel + 1) n =
      if n < 10 then [Char.ofNat ('0'.toNat + n)]
      else natCharsF fuel (n / 10) ++ [Char.ofNat ('0'.toNat + n % 10)] := rfl

theorem digit_char_facts (k : Nat) (hk : k < 10) :
    (Char.ofNat ('0'.toNat + k)).isDigit = true ∧
    uuidClassChar (Char.ofNat ('0'.toNat + k)) = true ∧
    safeChar (Char.ofNat ('0'.toNat + k)) = true ∧
    (Char.ofNat ('0'.toNat + k)).toNat - '0'.toNat = k := by
  interval_cases k <;> exact (by decide)

theorem natCharsF_fuel : ∀ fuel n, n < fuel → natCharsF fuel n = natChars n := by
  intro fuel
  induction fuel using Nat.strong_induction_on with
  | _ fuel ih =>
    intro n h
    cases fuel with
    | zero => omega
    | succ f =>
      show natCharsF (f + 1) n = natChars n
      rw [show natChars n = natCharsF (n + 1) n from rfl]
      rw [natCharsF_succ, natCharsF_succ]
      by_cases h10 : n < 10
      · rw [if_pos h10, if_pos h10]
      · rw [if_neg h10, if_neg h10]
        have hrec1 : natCharsF f (n / 10) = natChars (n / 10) :=
          ih f (by omega) (n / 10) (by omega)
        have hrec2 : natCharsF n (n / 10) = natChars (n / 10) :=
          ih n (by omega) (n / 10) (by omega)
        rw [hrec1, hrec2]

theorem natChars_eq (n : Nat) :
    natChars n =
      if n < 10 then [Char.ofNat ('0'.toNat + n)]
      else natChars (n / 10) ++ [Char.ofNat ('0'.toNat + n % 10)] := by
  conv_lhs => rw [show natChars n = natCharsF (n + 1) n from rfl, natCharsF_succ]
  by_cases h10 : n < 10
  · rw [if_pos h10, if_pos h10]
  · rw [if_neg h10, if_neg h10, natCharsF_fuel n (n / 10) (by omega)]

theorem natChars_digits (n : Nat) : ∀ c ∈ natChars n, c.isDigit = true := by
  induction n using Nat.strong_induction_on with
  | _ n ih =>
    rw [natChars_eq]
    by_cases h10 : n < 10
    · rw [if_pos h10]
      intro c hc
      simp only [List.mem_singleton] at hc
      subst hc
      exact (digit_char_facts n h10).1
    · rw [if_neg h10]
      intro c hc
      rcases List.mem_append.mp hc with hin | hin
      · exact ih (n / 10) (by omega) c hin
      · simp only [List.mem_singleton] at hin
        subst hin
        exact (digit_char_facts (n % 10) (by omega)).1

theorem natChars_ne_nil (n : Nat) : natChars n ≠ [] := by
  rw [natChars_eq]
  by_cases h10 : n < 10
  · simp [h10]
  · simp [h10]

theorem digitsToNat_natChars (n : Nat) : digitsToNat (natChars n) = n := by
  induction n using Nat.strong_induction_on with
  | _ n ih =>
    rw [natChars_eq]
    by_cases h10 : n < 10
    · rw [if_pos h10]
      show List.foldl _ 0 [Char.ofNat ('0'.toNat + n)] = n
      simp only [List.foldl_cons, List.foldl_nil]
      have := (digit_char_facts n h10).2.2.2
      omega
    · rw [if_neg h10]
      unfold digitsToNat
      rw [List.foldl_append]
      have hrec := ih (n / 10) (by omega)
      unfold digitsToNat at hrec
      rw [hrec]
      simp only [List.foldl_cons, List.foldl_nil]
      have := (digit_char_facts (n % 10) (by omega)).2.2.2
      omega

/-! ### The scan leaves non-string serialization pieces unchanged -/

theorem profile_getD (cs : List Char) (i : Nat) (h : i < cs.length) :
    (profile cs).getD i (false, false) = charClass (cs.getD i ' ') := by
  have hip : i < (profile cs).length := by rw [profile_length]; omega
  rw [List.getD_eq_getElem _ _ hip, List.getD_eq_getElem _ _ h]
  unfold profile
  simp

/-- A digit at offset 8 rules out a window match at the head: the shape
demands a hyphen there. -/
theorem not_shaped_of_digit8 {cs : List Char}
    (h8 : 8 < cs.length → (cs.getD 8 ' ').isDigit = true) :
    ¬ uuidShaped (cs.take 36) = true := by
  intro hs
  have hlen := length_of_shaped hs
  rw [List.length_take] at hlen
  have hcl : 36 ≤ cs.length := by omega
  have h8lt : 8 < (cs.take 36).length := by rw [List.length_take]; omega
  have hgd : (cs.take 36).getD 8 ' ' = cs.getD 8 ' ' := by
    rw [List.getD_eq_getElem _ _ h8lt, List.getD_eq_getElem _ _ (by omega)]
    simp [List.getElem_take]
  have hprof := profile_of_shaped hs
  have hc := congrArg (fun l => l.getD 8 ((false : Bool), (false : Bool))) hprof
  simp only at hc
  rw [profile_getD _ 8 h8lt, uuidProfile_getD (by omega)] at hc
  rw [if_pos (by decide : hyphenPos 8 = true)] at hc
  have hx : (cs.take 36).getD 8 ' ' = '-' := by
    have := congrArg Prod.snd hc
    simpa [charClass, beq_iff_eq] using this
  have hdig := h8 (by omega)
  rw [← hgd, hx] at hdig
  exact absurd hdig (by decide)

theorem applyScan_digits (σ : List Char → List Char) :
    ∀ cs, (∀ c ∈ cs, c.isDigit = true) → applyScan σ cs = cs := by
  intro cs
  induction cs with
  | nil => intro _; rfl
  | cons c rest ih =>
    intro h
    rw [applyScan_eq, if_neg (not_shaped_of_digit8 (fun hlt => h _ (by
      rw [List.getD_eq_getElem _ _ hlt]
      exact List.getElem_mem hlt)))]
    show c :: applyScan σ rest = c :: rest
    rw [ih (fun x hx => h x (List.mem_cons_of_mem _ hx))]

theorem applyScan_intChars (σ : List Char → List Char) (i : Int) :
    applyScan σ (intChars i) = intChars i := by
  unfold intChars
  by_cases hneg : i < 0
  · rw [if_pos hneg]
    have hds := natChars_digits i.natAbs
    rw [applyScan_eq, if_neg (not_shaped_of_digit8 (fun hlt => by
      show (('-' :: natChars i.natAbs).getD 8 ' ').isDigit = true
      have h7 : 7 < (natChars i.natAbs).length := by
        simp only [List.length_cons] at hlt
        omega
      rw [List.getD_cons_succ]
      apply hds
      rw [List.getD_eq_getElem _ _ h7]
      exact List.getElem_mem h7))]
    show '-' :: applyScan σ (natChars i.natAbs) = '-' :: natChars i.natAbs
    rw [applyScan_digits σ _ hds]
  · rw [if_neg hneg]
    exact applyScan_digits σ _ (natChars_digits _)

/-- Scanning a serialized string literal with safe content substitutes
exactly inside the quotes. -/
theorem applyScan_dumpsStr (σ : List Char → List Char) (hσ : ShapeOk σ)
    (s : String) (hsafe : safeStr s = true) :
    applyScan σ (dumpsStr s) = dumpsStr (scanStr σ s) := by
  unfold dumpsStr scanStr
  have hs' : ∀ c ∈ s.data, safeChar c = true := by
    unfold safeStr at hsafe
    exact List.all_eq_true.mp hsafe
  rw [applyScan_cons_notclass σ (by decide)]
  rw [escapeList_safe s.data hs']
  rw [applyScan_append σ ['"'] (by
    intro c hc
    simp only [List.head?] at hc
    cases hc
    decide) s.data]
  rw [applyScan_of_small σ ['"'] (by decide)]
  rw [show (String.mk (applyScan σ s.data)).data = applyScan σ s.data from rfl]
  rw [escapeList_safe _ (applyScan_all_safe σ hσ s.data hs')]

theorem dumpsArrSep_head (es : List Json) :
    ∀ c, (dumpsArrSep es).head? = some c → uuidClassChar c = false := by
  intro c hc
  cases es with
  | nil => simp [dumpsArrSep] at hc
  | cons e es =>
    have : (',' : Char) = c := by
      simpa [dumpsArrSep] using hc
    rw [← this]
    decide

theorem dumpsObjSep_head (ms : List (String × Json)) :
    ∀ c, (dumpsObjSep ms).head? = some c → uuidClassChar c = false := by
  intro c hc
  cases ms with
  | nil => simp [dumpsObjSep] at hc
  | cons kv ms =>
    obtain ⟨k, v⟩ := kv
    have : (',' : Char) = c := by
      simpa [dumpsObjSep] using hc
    rw [← this]
    decide

mutual

/-- The UUID substitution over serialized JSON is the serialization of the
payload with every string and key scanned: no window crosses a token
boundary, since every boundary carries a non-class character. -/
theorem scan_dumps_val (σ : List Char → List Char) (hσ : ShapeOk σ) :
    ∀ p, safeJson p = true → applyScan σ (dumpsVal p) = dumpsVal (substJson σ p)
  | .null, _ => applyScan_of_small σ _ (by decide)
  | .bool b, _ => by
    cases b <;> exact applyScan_of_small σ _ (by decide)
  | .num i, _ => applyScan_intChars σ i
  | .str s, hsafe => applyScan_dumpsStr σ hσ s hsafe
  | .arr es, hsafe => by
    show applyScan σ ('[' :: (dumpsArr es ++ [']'])) =
      '[' :: (dumpsArr (substArr σ es) ++ [']'])
    rw [applyScan_cons_notclass σ (by decide)]
    rw [applyScan_append σ [']'] (by
      intro c hc
      simp only [List.head?] at hc
      cases hc
      decide) (dumpsArr es)]
    rw [applyScan_of_small σ [']'] (by decide)]
    rw [scan_dumps_arr σ hσ es hsafe]
  | .obj ms, hsafe => by
    show applyScan σ ('\x7b' :: (dumpsObj ms ++ ['\x7d'])) =
      '\x7b' :: (dumpsObj (substObj σ ms) ++ ['\x7d'])
    rw [applyScan_cons_notclass σ (by decide)]
    rw [applyScan_append σ ['\x7d'] (by
      intro c hc
      simp only [List.head?] at hc
      cases hc
      decide) (dumpsObj ms)]
    rw [applyScan_of_small σ ['\x7d'] (by decide)]
    rw [scan_dumps_obj σ hσ ms hsafe]

theorem scan_dumps_arr (σ : List Char → List Char) (hσ : ShapeOk σ) :
    ∀ es, safeArr es = true → applyScan σ (dumpsArr es) = dumpsArr (substArr σ es)
  | [], _ => rfl
  | e :: es, hsafe => by
    have h12 : safeJson e = true ∧ safeArr es = true := by
      have h : (safeJson e && safeArr es) = true := hsafe
      rw [Bool.and_eq_true] at h
      exact h
    show applyScan σ (dumpsVal e ++ dumpsArrSep es) =
      dumpsVal (substJson σ e) ++ dumpsArrSep (substArr σ es)
    rw [applyScan_append σ (dumpsArrSep es) (dumpsArrSep_head es) (dumpsVal e)]
    rw [scan_dumps_val σ hσ e h12.1, scan_dumps_arrsep σ hσ es h12.2]

theorem scan_dumps_arrsep (σ : List Char → List Char) (hσ : ShapeOk σ) :
    ∀ es, safeArr es = true →
      applyScan σ (dumpsArrSep es) = dumpsArrSep (substArr σ es)
  | [], _ => rfl
  | e :: es, hsafe => by
    have h12 : safeJson e = true ∧ safeArr es = true := by
      have h : (safeJson e && safeArr es) = true := hsafe
      rw [Bool.and_eq_true] at h
      exact h
    show applyScan σ (',' :: ' ' :: (dumpsVal e ++ dumpsArrSep es)) =
      ',' :: ' ' :: (dumpsVal (substJson σ e) ++ dumpsArrSep (substArr σ es))
    rw [applyScan_cons_notclass σ (by decide), applyScan_cons_notclass σ (by decide)]
    rw [applyScan_append σ (dumpsArrSep es) (dumpsArrSep_head es) (dumpsVal e)]
    rw [scan_dumps_val σ hσ e h12.1, scan_dumps_arrsep σ hσ es h12.2]

theorem scan_dumps_obj (σ : List Char → List Char) (hσ : ShapeOk σ) :
    ∀ ms, safeObj ms = true → applyScan σ (dumpsObj ms) = dumpsObj (substObj σ ms)
  | [], _ => rfl
  | (k, v) :: ms, hsafe => by
    have h123 : safeStr k = true ∧ safeJson v = true ∧ safeObj ms = true := by
      have h : (safeStr k && safeJson v && safeObj ms) = true := hsafe
      rw [Bool.and_eq_true, Bool.and_eq_true] at h
      exact ⟨h.1.1, h.1.2, h.2⟩
    show applyScan σ (dumpsStr k ++ ':' :: ' ' :: (dumpsVal v ++ dumpsObjSep ms)) =
      dumpsStr (scanStr σ k) ++
        ':' :: ' ' :: (dumpsVal (substJson σ v) ++ dumpsObjSep (substObj σ ms))
    rw [applyScan_append σ (':' :: ' ' :: (dumpsVal v ++ dumpsObjSep ms)) (by
      intro c hc
      simp only [List.head?] at hc
      cases hc
      decide) (dumpsStr k)]
    rw [applyScan_dumpsStr σ hσ k h123.1]
    rw [applyScan_cons_notclass σ (by decide), applyScan_cons_notclass σ (by decide)]
    rw [applyScan_append σ (dumpsObjSep ms) (dumpsObjSep_head ms) (dumpsVal v)]
    rw [scan_dumps_val σ hσ v h123.2.1, scan_dumps_objsep σ hσ ms h123.2.2]

theorem scan_dumps_objsep (σ : List Char → List Char) (hσ : ShapeOk σ) :
    ∀ ms, safeObj ms = true →
      applyScan σ (dumpsObjSep ms) = dumpsObjSep (substObj σ ms)
  | [], _ => rfl
  | (k, v) :: ms, hsafe => by
    have h123 : safeStr k = true ∧ safeJson v = true ∧ safeObj ms = true := by
      have h : (safeStr k && safeJson v && safeObj ms) = true := hsafe
      rw [Bool.and_eq_true, Bool.and_eq_true] at h
      exact ⟨h.1.1, h.1.2, h.2⟩
    show applyScan σ (',' :: ' ' :: (dumpsStr k ++ ':' :: ' ' :: (dumpsVal v ++ dumpsObjSep ms))) =
      ',' :: ' ' :: (dumpsStr (scanStr σ k) ++
        ':' :: ' ' :: (dumpsVal (substJson σ v) ++ dumpsObjSep (substObj σ ms)))
    rw [applyScan_cons_notclass σ (by decide), applyScan_cons_notclass σ (by decide)]
    rw [applyScan_append σ (':' :: ' ' :: (dumpsVal v ++ dumpsObjSep ms)) (by
      intro c hc
      simp only [List.head?] at hc
      cases hc
      decide) (dumpsStr k)]
    rw [applyScan_dumpsStr σ hσ k h123.1]
    rw [applyScan_cons_notclass σ (by decide), applyScan_cons_notclass σ (by decide)]
    rw [applyScan_append σ (dumpsObjSep ms) (dumpsObjSep_head ms) (dumpsVal v)]
    rw [scan_dumps_val σ hσ v h123.2.1, scan_dumps_objsep σ hσ ms h123.2.2]

end

/-! ### Round trip: the parser inverts `dumps` on safe payloads -/

theorem skipWs_cons_ws {c : Char} (h : isWsJson c = true) (cs : List Char) :
    skipWs (c :: cs) = skipWs cs := by
  show (if isWsJson c then skipWs cs else c :: cs) = skipWs cs
  rw [if_pos h]

theorem skipWs_eq_self {cs : List Char}
    (h : ∀ c, cs.head? = some c → isWsJson c = false) : skipWs cs = cs := by
  cases cs with
  | nil => rfl
  | cons c r =>
    show (if isWsJson c then skipWs r else c :: r) = c :: r
    rw [h c rfl]
    exact if_neg (by decide)

theorem parseVal_eq_tok (fuel : Nat) {cs : List Char} {c : Char} {r : List Char}
    (h : skipWs cs = c :: r) :
    parseVal (fuel + 1) cs = parseTok (parseElems fuel) (parseMembers fuel) c r := by
  show (match skipWs cs with
    | [] => none
    | c :: r => parseTok (parseElems fuel) (parseMembers fuel) c r) =
    parseTok (parseElems fuel) (parseMembers fuel) c r
  rw [h]

theorem parseElems_succ (fuel : Nat) (cs : List Char) :
    parseElems (fuel + 1) cs =
      match parseVal fuel cs with
      | none => none
      | some (v, r) =>
        match skipWs r with
        | ',' :: r' =>
          match parseElems fuel r' with
          | some (vs, r'') => some (v :: vs, r'')
          | none => none
        | ']' :: r' => some ([v], r')
        | _ => none := rfl

theorem parseMembers_succ (fuel : Nat) (cs : List Char) :
    parseMembers (fuel + 1) cs =
      match skipWs cs with
      | '"' :: r =>
        match parseStrBody [] r with
        | none => none
        | some (key, r1) =>
          match skipWs r1 with
          | ':' :: r2 =>
            match parseVal fuel r2 with
            | none => none
            | some (v, r3) =>
              match skipWs r3 with
              | ',' :: r4 =>
                match parseMembers fuel r4 with
                | some (ms, r5) => some ((key, v) :: ms, r5)
                | none => none
              | '\x7d' :: r4 => some ([(key, v)], r4)
              | _ => none
          | _ => none
      | _ => none := rfl

theorem parseVal_cons_ws (fuel : Nat) {c : Char} (h : isWsJson c = true)
    (cs : List Char) : parseVal fuel (c :: cs) = parseVal fuel cs := by
  cases fuel with
  | zero => rfl
  | succ f =>
    show (match skipWs (c :: cs) with
      | [] => none
      | c :: r => parseTok (parseElems f) (parseMembers f) c r) =
      (match skipWs cs with
      | [] => none
      | c :: r => parseTok (parseElems f) (parseMembers f) c r)
    rw [skipWs_cons_ws h]

theorem parseElems_cons_ws (fuel : Nat) {c : Char} (h : isWsJson c = true)
    (cs : List Char) : parseElems fuel (c :: cs) = parseElems fuel cs := by
  cases fuel with
  | zero => rfl
  | succ f => rw [parseElems_succ, parseElems_succ, parseVal_cons_ws f h]

theorem parseMembers_cons_ws (fuel : Nat) {c : Char} (h : isWsJson c = true)
    (cs : List Char) : parseMembers fuel (c :: cs) = parseMembers fuel cs := by
  cases fuel with
  | zero => rfl
  | succ f => rw [parseMembers_succ, parseMembers_succ, skipWs_cons_ws h]

theorem safeChar_facts {c : Char} (h : safeChar c = true) :
    0x20 ≤ c.toNat ∧ c.toNat ≤ 0x7e ∧ ¬(c = '"') ∧ ¬(c = '\\') := by
  unfold safeChar at h
  simp only [Bool.and_eq_true, decide_eq_true_eq] at h
  exact ⟨h.1.1.1, h.1.1.2, h.1.2, h.2⟩

theorem parseStrBodyF_succ_cons (acc : List Char) (fuel : Nat) (c : Char)
    (rest : List Char) :
    parseStrBodyF acc (fuel + 1) (c :: rest) =
      (if c = '"' then some (String.mk acc.reverse, rest)
      else if c = '\\' then
        match rest with
        | 'u' :: a :: b :: c2 :: d :: rest1 =>
          match hexQuad a b c2 d with
          | none => none
          | some n =>
            if 0xd800 ≤ n && n ≤ 0xdbff then
              match rest1 with
              | '\\' :: 'u' :: e :: f :: g :: h :: rest2 =>
                match hexQuad e f g h with
                | some n2 =>
                  if 0xdc00 ≤ n2 && n2 ≤ 0xdfff then
                    parseStrBodyF
                      (Char.ofNat (0x10000 + (n - 0xd800) * 0x400 + (n2 - 0xdc00)) :: acc)
                      fuel rest2
                  else
                    parseStrBodyF (Char.ofNat n :: acc) fuel
                      ('\\' :: 'u' :: e :: f :: g :: h :: rest2)
                | none =>
                  parseStrBodyF (Char.ofNat n :: acc) fuel
                    ('\\' :: 'u' :: e :: f :: g :: h :: rest2)
              | _ => parseStrBodyF (Char.ofNat n :: acc) fuel rest1
            else parseStrBodyF (Char.ofNat n :: acc) fuel rest1
        | e :: rest1 =>
          match unescapeChar e with
          | some ch => parseStrBodyF (ch :: acc) fuel rest1
          | none => none
        | [] => none
      else if c.toNat < 0x20 then none
      else parseStrBodyF (c :: acc) fuel rest) := rfl

theorem parseStrBodyF_safe_cons (acc : List Char) (fuel : Nat) {c : Char}
    (h : safeChar c = true) (rest : List Char) :
    parseStrBodyF acc (fuel + 1) (c :: rest) = parseStrBodyF (c :: acc) fuel rest := by
  obtain ⟨h1, _, h3, h4⟩ := safeChar_facts h
  rw [parseStrBodyF_succ_cons]
  rw [if_neg h3, if_neg h4, if_neg (by omega)]

theorem parseStrBodyF_content : ∀ (content : List Char) (fuel : Nat),
    content.length < fuel → ∀ (acc rest : List Char),
    (∀ c ∈ content, safeChar c = true) →
    parseStrBodyF acc fuel (content ++ '"' :: rest) =
      some (String.mk (acc.reverse ++ content), rest)
  | [], fuel, hf, acc, rest, _ => by
    cases fuel with
    | zero => omega
    | succ f =>
      show parseStrBodyF acc (f + 1) ('"' :: rest) = _
      rw [show parseStrBodyF acc (f + 1) ('"' :: rest) =
        some (String.mk acc.reverse, rest) from rfl]
      rw [List.append_nil]
  | c :: cs, fuel, hf, acc, rest, hsafe => by
    cases fuel with
    | zero => simp only [List.length_cons] at hf; omega
    | succ f =>
      show parseStrBodyF acc (f + 1) (c :: (cs ++ '"' :: rest)) = _
      rw [parseStrBodyF_safe_cons acc f (hsafe c (List.mem_cons_self c cs)) _]
      rw [parseStrBodyF_content cs f (by simp only [List.length_cons] at hf; omega)
        (c :: acc) rest (fun x hx => hsafe x (List.mem_cons_of_mem c hx))]
      rw [show (c :: acc).reverse = acc.reverse ++ [c] from List.reverse_cons c acc]
      rw [List.append_assoc]
      rfl

theorem parseStrBody_content (content : List Char) (rest : List Char)
    (hsafe : ∀ c ∈ content, safeChar c = true) :
    parseStrBody [] (content ++ '"' :: rest) = some (String.mk content, rest) := by
  unfold parseStrBody
  rw [parseStrBodyF_content content _ (by
    rw [List.length_append]
    simp only [List.length_cons]
    omega) [] rest hsafe]
  rfl

theorem takeDigits_cons (c : Char) (cs : List Char) :
    takeDigits (c :: cs) =
      if c.isDigit then (c :: (takeDigits cs).1, (takeDigits cs).2)
      else ([], c :: cs) := rfl

theorem takeDigits_split : ∀ (ds : List Char), (∀ c ∈ ds, c.isDigit = true) →
    ∀ {rest : List Char}, (∀ c, rest.head? = some c → c.isDigit = false) →
    takeDigits (ds ++ rest) = (ds, rest)
  | [], _, rest, hrest => by
    cases rest with
    | nil => rfl
    | cons c0 r0 =>
      show takeDigits (c0 :: r0) = ([], c0 :: r0)
      rw [takeDigits_cons, hrest c0 rfl]
      exact if_neg (by decide)
  | d :: ds, hds, rest, hrest => by
    show takeDigits (d :: (ds ++ rest)) = (d :: ds, rest)
    rw [takeDigits_cons, if_pos (hds d (List.mem_cons_self d ds))]
    rw [takeDigits_split ds (fun c hc => hds c (List.mem_cons_of_mem d hc)) hrest]

theorem parseNatTok_natChars (neg : Bool) (n : Nat) {rest : List Char}
    (hrest : parseDelim rest) :
    parseNatTok neg (natChars n ++ rest) =
      some (if neg then -(n : Int) else (n : Int), rest) := by
  have hnodig : ∀ c, rest.head? = some c → c.isDigit = false := by
    intro c hc
    cases rest with
    | nil => exact absurd hc (by simp)
    | cons c0 r0 =>
      have hcc : some c0 = some c := hc
      injection hcc with hcc
      subst hcc
      have h3 : c0 = ',' ∨ c0 = ']' ∨ c0 = '\x7d' := hrest
      rcases h3 with h | h | h <;> (subst h; decide)
  obtain ⟨d, ds', hnc⟩ := List.exists_cons_of_ne_nil (natChars_ne_nil n)
  have hdig : digitsToNat (natChars n) = n := digitsToNat_natChars n
  show (match takeDigits (natChars n ++ rest) with
    | ([], _) => none
    | (ds, r) =>
      match r with
      | '.' :: _ => none
      | 'e' :: _ => none
      | 'E' :: _ => none
      | _ => some (if neg then -(digitsToNat ds : Int) else (digitsToNat ds : Int), r)) =
    some (if neg then -(n : Int) else (n : Int), rest)
  rw [takeDigits_split (natChars n) (natChars_digits n) hnodig]
  rw [hnc]
  have hz : (if neg then -(digitsToNat (d :: ds') : Int) else (digitsToNat (d :: ds') : Int)) =
      (if neg then -(n : Int) else (n : Int)) := by
    rw [← hnc, hdig]
  rw [← hz]
  cases rest with
  | nil => rfl
  | cons c0 r0 =>
    have h3 : c0 = ',' ∨ c0 = ']' ∨ c0 = '\x7d' := hrest
    rcases h3 with h | h | h <;> (subst h; rfl)

theorem parseIntTok_intChars (i : Int) {rest : List Char} (hrest : parseDelim rest) :
    parseIntTok (intChars i ++ rest) = some (i, rest) := by
  by_cases hneg : i < 0
  · have h1 : intChars i ++ rest = '-' :: (natChars i.natAbs ++ rest) := by
      unfold intChars
      rw [if_pos hneg]
      rfl
    rw [h1]
    show parseNatTok true (natChars i.natAbs ++ rest) = some (i, rest)
    rw [parseNatTok_natChars true i.natAbs hrest]
    rw [show (if true then -((i.natAbs : Int)) else ((i.natAbs : Int))) =
      -((i.natAbs : Int)) from rfl]
    rw [show -((i.natAbs : Int)) = i from by omega]
  · have h1 : intChars i ++ rest = natChars i.natAbs ++ rest := by
      unfold intChars
      rw [if_neg hneg]
    rw [h1]
    obtain ⟨d, ds', hnc⟩ := List.exists_cons_of_ne_nil (natChars_ne_nil i.natAbs)
    have hd : d.isDigit = true :=
      natChars_digits i.natAbs d (by rw [hnc]; exact List.mem_cons_self d ds')
    have hdne : ¬ ((natChars i.natAbs ++ rest).head? = some '-') := by
      rw [hnc]
      intro hcontra
      have h' : some d = some '-' := hcontra
      injection h' with h'
      rw [h'] at hd
      exact absurd hd (by decide)
    show (if (natChars i.natAbs ++ rest).head? = some '-'
        then parseNatTok true (natChars i.natAbs ++ rest).tail
        else parseNatTok false (natChars i.natAbs ++ rest)) = some (i, rest)
    rw [if_neg hdne]
    rw [parseNatTok_natChars false i.natAbs hrest]
    rw [show (if false then -((i.natAbs : Int)) else ((i.natAbs : Int))) =
      ((i.natAbs : Int)) from rfl]
    rw [show ((i.natAbs : Int)) = i from by omega]

theorem jsize_pos : ∀ p : Json, 1 ≤ jsize p
  | .null => le_refl 1
  | .bool _ => le_refl 1
  | .num _ => le_refl 1
  | .str _ => le_refl 1
  | .arr es => by
    show 1 ≤ 2 + lsizeArr es
    omega
  | .obj ms => by
    show 1 ≤ 2 + lsizeObj ms
    omega

theorem isDigit_not_ws {c : Char} (h : c.isDigit = true) : isWsJson c = false := by
  unfold isWsJson
  have h1 : ¬(c = ' ') := fun hc => by rw [hc] at h; exact absurd h (by decide)
  have h2 : ¬(c = '\t') := fun hc => by rw [hc] at h; exact absurd h (by decide)
  have h3 : ¬(c = '\n') := fun hc => by rw [hc] at h; exact absurd h (by decide)
  have h4 : ¬(c = '\r') := fun hc => by rw [hc] at h; exact absurd h (by decide)
  simp [h1, h2, h3, h4]

/-- Every serialized value starts with a non-blank character that is not a
closing bracket. -/
theorem dumpsVal_head : ∀ p : Json, ∃ c X, dumpsVal p = c :: X ∧
    isWsJson c = false ∧ ¬(c = ']') ∧ ¬(c = '\x7d')
  | .null => ⟨'n', _, rfl, by decide, by decide, by decide⟩
  | .bool true => ⟨'t', _, rfl, by decide, by decide, by decide⟩
  | .bool false => ⟨'f', _, rfl, by decide, by decide, by decide⟩
  | .num i => by
    rw [show dumpsVal (.num i) = intChars i from rfl]
    unfold intChars
    by_cases hneg : i < 0
    · rw [if_pos hneg]
      exact ⟨'-', _, rfl, by decide, by decide, by decide⟩
    · rw [if_neg hneg]
      obtain ⟨d, ds', hnc⟩ := List.exists_cons_of_ne_nil (natChars_ne_nil i.natAbs)
      have hd : d.isDigit = true :=
        natChars_digits i.natAbs d (by rw [hnc]; exact List.mem_cons_self d ds')
      refine ⟨d, ds', hnc, isDigit_not_ws hd, ?_, ?_⟩
      · intro hc
        rw [hc] at hd
        exact absurd hd (by decide)
      · intro hc
        rw [hc] at hd
        exact absurd hd (by decide)
  | .str s => ⟨'"', _, rfl, by decide, by decide, by decide⟩
  | .arr es => ⟨'[', _, rfl, by decide, by decide, by decide⟩
  | .obj ms => ⟨'\x7b', _, rfl, by decide, by decide, by decide⟩

theorem skipWs_dumpsVal (p : Json) (Y : List Char) :
    skipWs (dumpsVal p ++ Y) = dumpsVal p ++ Y := by
  obtain ⟨c, X, hh, hws, _, _⟩ := dumpsVal_head p
  rw [hh]
  show (if isWsJson c then skipWs (X ++ Y) else c :: (X ++ Y)) = c :: (X ++ Y)
  rw [hws]
  exact if_neg (by decide)

theorem dumpsVal_append_head_ne (p : Json) (Y : List Char) :
    ¬((dumpsVal p ++ Y).head? = some ']') ∧
    ¬((dumpsVal p ++ Y).head? = some '\x7d') := by
  obtain ⟨c, X, hh, _, h2, h3⟩ := dumpsVal_head p
  rw [hh]
  constructor
  · intro hcon
    have h' : some c = some ']' := hcon
    injection h' with h'
    exact h2 h'
  · intro hcon
    have h' : some c = some '\x7d' := hcon
    injection h' with h'
    exact h3 h'

theorem skipWs_dumpsStr (s : String) (Y : List Char) :
    skipWs (dumpsStr s ++ Y) = dumpsStr s ++ Y := rfl

theorem dumpsStr_head_ne (s : String) (Y : List Char) :
    ¬ ((dumpsStr s ++ Y).head? = some '\x7d') := by
  intro hcon
  have h' : some '"' = some '\x7d' := hcon
  injection h' with h'
  exact absurd h' (by decide)

theorem parseDelim_arr (es : List Json) (rest : List Char) :
    parseDelim (dumpsArrSep es ++ ']' :: rest) := by
  cases es with
  | nil => exact Or.inr (Or.inl rfl)
  | cons e es => exact Or.inl rfl

theorem parseDelim_obj (ms : List (String × Json)) (rest : List Char) :
    parseDelim (dumpsObjSep ms ++ '\x7d' :: rest) := by
  cases ms with
  | nil => exact Or.inr (Or.inr rfl)
  | cons kv ms =>
    obtain ⟨k, v⟩ := kv
    exact Or.inl rfl

theorem safeArr_cons {e : Json} {es : List Json} (h : safeArr (e :: es) = true) :
    safeJson e = true ∧ safeArr es = true := by
  have h' : (safeJson e && safeArr es) = true := h
  rw [Bool.and_eq_true] at h'
  exact h'

theorem safeObj_cons {k : String} {v : Json} {ms : List (String × Json)}
    (h : safeObj ((k, v) :: ms) = true) :
    safeStr k = true ∧ safeJson v = true ∧ safeObj ms = true := by
  have h' : (safeStr k && safeJson v && safeObj ms) = true := h
  rw [Bool.and_eq_true, Bool.and_eq_true] at h'
  exact ⟨h'.1.1, h'.1.2, h'.2⟩

theorem nodupArr_cons {e : Json} {es : List Json}
    (h : nodupKeysArr (e :: es) = true) :
    nodupKeysJson e = true ∧ nodupKeysArr es = true := by
  have h' : (nodupKeysJson e && nodupKeysArr es) = true := h
  rw [Bool.and_eq_true] at h'
  exact h'

theorem nodupObj_cons {k : String} {v : Json} {ms : List (String × Json)}
    (h : nodupKeysObj ((k, v) :: ms) = true) :
    nodupKeysJson v = true ∧ nodupKeysObj ms = true := by
  have h' : (nodupKeysJson v && nodupKeysObj ms) = true := h
  rw [Bool.and_eq_true] at h'
  exact h'

theorem nodupJson_obj {ms : List (String × Json)}
    (h : nodupKeysJson (.obj ms) = true) :
    (ms.map Prod.fst).Nodup ∧ nodupKeysObj ms = true := by
  have h' : (decide ((ms.map Prod.fst).Nodup) && nodupKeysObj ms) = true := h
  rw [Bool.and_eq_true, decide_eq_true_eq] at h'
  exact h'

theorem upsert_not_mem {α : Type} : ∀ (l : List (String × α)) (k : String) (v : α),
    ¬ k ∈ l.map Prod.fst → upsert l k v = l ++ [(k, v)]
  | [], k, v, _ => rfl
  | (k', v') :: t, k, v, h => by
    have hne : ¬ (k' = k) := fun he => h (by simp [he])
    show (if k' = k then (k, v) :: t else (k', v') :: upsert t k v) =
      (k', v') :: (t ++ [(k, v)])
    rw [if_neg hne, upsert_not_mem t k v (fun hm => h (by
      simp only [List.map_cons, List.mem_cons]
      exact Or.inr hm))]

theorem foldl_upsert_append : ∀ (ms acc : List (String × Json)),
    (∀ k, k ∈ acc.map Prod.fst → ¬ k ∈ ms.map Prod.fst) →
    (ms.map Prod.fst).Nodup →
    ms.foldl (fun a kv => upsert a kv.1 kv.2) acc = acc ++ ms
  | [], acc, _, _ => by rw [List.foldl_nil, List.append_nil]
  | (k, v) :: ms, acc, hdisj, hnodup => by
    rw [List.foldl_cons]
    have hk : ¬ k ∈ acc.map Prod.fst := by
      intro hin
      exact hdisj k hin (by simp)
    have hnodup' : (ms.map Prod.fst).Nodup ∧ ¬ k ∈ ms.map Prod.fst := by
      simp only [List.map_cons, List.nodup_cons] at hnodup
      exact ⟨hnodup.2, hnodup.1⟩
    show List.foldl _ (upsert acc k v) ms = _
    rw [upsert_not_mem acc k v hk]
    have hdisj' : ∀ k2, k2 ∈ (acc ++ [(k, v)]).map Prod.fst → ¬ k2 ∈ ms.map Prod.fst := by
      intro k2 hk2 hk2'
      rw [List.map_append, List.mem_append] at hk2
      rcases hk2 with h | h
      · exact hdisj k2 h (by
          simp only [List.map_cons, List.mem_cons]
          exact Or.inr hk2')
      · have hkk : k2 = k := by simpa using h
        rw [hkk] at hk2'
        exact hnodup'.2 hk2'
    rw [foldl_upsert_append ms (acc ++ [(k, v)]) hdisj' hnodup'.1]
    rw [List.append_assoc]
    rfl

/-- `dict(members)` keeps exactly the member list when no key repeats. -/
theorem pyDict_nodup (ms : List (String × Json)) (h : (ms.map Prod.fst).Nodup) :
    pyDict ms = ms := by
  show ms.foldl (fun a kv => upsert a kv.1 kv.2) [] = ms
  rw [foldl_upsert_append ms [] (fun k hk => absurd hk (by simp)) h]
  rfl

theorem parseTok_num (pE : List Char → Option (List Json × List Char))
    (pM : List Char → Option (List (String × Json) × List Char))
    {c : Char} (h : c = '-' ∨ c.isDigit = true) (r : List Char) :
    parseTok pE pM c r =
      match parseIntTok (c :: r) with
      | some (i, r') => some (.num i, r')
      | none => none := by
  unfold parseTok
  rw [if_pos (by
    rcases h with h | h
    · rw [h]
      decide
    · rw [Bool.or_eq_true]
      exact Or.inr h)]

theorem parseVal_intChars (fuel : Nat) (i : Int) {rest : List Char}
    (hrest : parseDelim rest) :
    parseVal (fuel + 1) (intChars i ++ rest) = some (.num i, rest) := by
  obtain ⟨c, X, h1, hdig⟩ : ∃ c X, intChars i = c :: X ∧ (c = '-' ∨ c.isDigit = true) := by
    unfold intChars
    by_cases hneg : i < 0
    · rw [if_pos hneg]
      exact ⟨'-', _, rfl, Or.inl rfl⟩
    · rw [if_neg hneg]
      obtain ⟨d, ds', hnc⟩ := List.exists_cons_of_ne_nil (natChars_ne_nil i.natAbs)
      exact ⟨d, ds', hnc, Or.inr (natChars_digits i.natAbs d
        (by rw [hnc]; exact List.mem_cons_self d ds'))⟩
  have hws : isWsJson c = false := by
    rcases hdig with h | h
    · rw [h]
      decide
    · exact isDigit_not_ws h
  rw [h1]
  rw [parseVal_eq_tok fuel (show skipWs ((c :: X) ++ rest) = c :: (X ++ rest) from by
    show (if isWsJson c then skipWs (X ++ rest) else c :: (X ++ rest)) = c :: (X ++ rest)
    rw [hws]
    exact if_neg (by decide))]
  rw [parseTok_num _ _ hdig _]
  rw [show c :: (X ++ rest) = intChars i ++ rest from by rw [h1]; rfl]
  rw [parseIntTok_intChars i hrest]

theorem parseVal_dumpsStr (fuel : Nat) (s : String) (hsafe : safeStr s = true)
    (rest : List Char) :
    parseVal (fuel + 1) (dumpsStr s ++ rest) = some (.str s, rest) := by
  have hs' : ∀ c ∈ s.data, safeChar c = true := List.all_eq_true.mp hsafe
  rw [show dumpsStr s ++ rest = '"' :: ((escapeList s.data ++ ['"']) ++ rest) from rfl]
  rw [parseVal_eq_tok fuel (show skipWs ('"' :: ((escapeList s.data ++ ['"']) ++ rest)) =
    '"' :: ((escapeList s.data ++ ['"']) ++ rest) from rfl)]
  show (match parseStrBody [] ((escapeList s.data ++ ['"']) ++ rest) with
    | some (s', r') => some (Json.str s', r')
    | none => none) = some (Json.str s, rest)
  rw [escapeList_safe s.data hs']
  rw [List.append_assoc]
  rw [show (['"'] ++ rest : List Char) = '"' :: rest from rfl]
  rw [parseStrBody_content s.data rest hs']

mutual

/-- The parser inverts serialization on safe payloads: a value followed by
a closing delimiter parses back to itself. -/
theorem parse_dumps_val : ∀ (fuel : Nat) (p : Json) (rest : List Char),
    jsize p ≤ fuel → safeJson p = true → nodupKeysJson p = true → parseDelim rest →
    parseVal fuel (dumpsVal p ++ rest) = some (p, rest)
  | 0, p, _, hsz, _, _, _ => absurd hsz (by have := jsize_pos p; omega)
  | fuel + 1, .null, rest, _, _, _, _ => rfl
  | fuel + 1, .bool b, rest, _, _, _, _ => by cases b <;> rfl
  | fuel + 1, .num i, rest, _, _, _, hrest => parseVal_intChars fuel i hrest
  | fuel + 1, .str s, rest, _, hsafe, _, _ => parseVal_dumpsStr fuel s hsafe rest
  | fuel + 1, .arr es, rest, hsz, hsafe, hnodup, _ => by
    rw [show dumpsVal (.arr es) ++ rest = '[' :: ((dumpsArr es ++ [']']) ++ rest) from rfl]
    rw [parseVal_eq_tok fuel (show skipWs ('[' :: ((dumpsArr es ++ [']']) ++ rest)) =
      '[' :: ((dumpsArr es ++ [']']) ++ rest) from rfl)]
    cases es with
    | nil => rfl
    | cons e es' =>
      have hshape : (dumpsArr (e :: es') ++ [']']) ++ rest =
          dumpsVal e ++ (dumpsArrSep es' ++ ']' :: rest) := by
        show ((dumpsVal e ++ dumpsArrSep es') ++ [']']) ++ rest = _
        simp only [List.append_assoc, List.cons_append, List.nil_append]
      rw [hshape]
      show (if (skipWs (dumpsVal e ++ (dumpsArrSep es' ++ ']' :: rest))).head? = some ']'
          then some (Json.arr [], (skipWs (dumpsVal e ++ (dumpsArrSep es' ++ ']' :: rest))).tail)
          else
            match parseElems fuel (skipWs (dumpsVal e ++ (dumpsArrSep es' ++ ']' :: rest))) with
            | some (es2, r'') => some (Json.arr es2, r'')
            | none => none) = some (Json.arr (e :: es'), rest)
      rw [skipWs_dumpsVal e (dumpsArrSep es' ++ ']' :: rest)]
      rw [if_neg (dumpsVal_append_head_ne e (dumpsArrSep es' ++ ']' :: rest)).1]
      have hsz' : 2 + (jsize e + lsizeArr es') ≤ fuel + 1 := hsz
      have hsafe' : safeArr (e :: es') = true := hsafe
      have hnodup' : nodupKeysArr (e :: es') = true := hnodup
      rw [parse_dumps_elems fuel e es' rest (by omega) hsafe' hnodup']
  | fuel + 1, .obj ms, rest, hsz, hsafe, hnodup, _ => by
    rw [show dumpsVal (.obj ms) ++ rest = '\x7b' :: ((dumpsObj ms ++ ['\x7d']) ++ rest) from rfl]
    rw [parseVal_eq_tok fuel (show skipWs ('\x7b' :: ((dumpsObj ms ++ ['\x7d']) ++ rest)) =
      '\x7b' :: ((dumpsObj ms ++ ['\x7d']) ++ rest) from rfl)]
    cases ms with
    | nil => rfl
    | cons kv ms' =>
      obtain ⟨k, v⟩ := kv
      have hshape : (dumpsObj ((k, v) :: ms') ++ ['\x7d']) ++ rest =
          dumpsStr k ++ (':' :: ' ' :: (dumpsVal v ++ (dumpsObjSep ms' ++ '\x7d' :: rest))) := by
        show ((dumpsStr k ++ ':' :: ' ' :: (dumpsVal v ++ dumpsObjSep ms')) ++ ['\x7d']) ++ rest = _
        simp only [List.append_assoc, List.cons_append, List.nil_append]
      rw [hshape]
      show (if (skipWs (dumpsStr k ++ (':' :: ' ' :: (dumpsVal v ++
              (dumpsObjSep ms' ++ '\x7d' :: rest))))).head? = some '\x7d'
          then some (Json.obj [], (skipWs (dumpsStr k ++ (':' :: ' ' :: (dumpsVal v ++
              (dumpsObjSep ms' ++ '\x7d' :: rest))))).tail)
          else
            match parseMembers fuel (skipWs (dumpsStr k ++ (':' :: ' ' :: (dumpsVal v ++
                (dumpsObjSep ms' ++ '\x7d' :: rest))))) with
            | some (ms2, r'') => some (Json.obj (pyDict ms2), r'')
            | none => none) = some (Json.obj ((k, v) :: ms'), rest)
      rw [skipWs_dumpsStr k (':' :: ' ' :: (dumpsVal v ++ (dumpsObjSep ms' ++ '\x7d' :: rest)))]
      rw [if_neg (dumpsStr_head_ne k (':' :: ' ' :: (dumpsVal v ++
        (dumpsObjSep ms' ++ '\x7d' :: rest))))]
      have hsz' : 2 + (jsize v + lsizeObj ms') ≤ fuel + 1 := hsz
      have hsafe' : safeObj ((k, v) :: ms') = true := hsafe
      obtain ⟨hnd, hno⟩ := nodupJson_obj hnodup
      rw [show dumpsStr k ++ (':' :: ' ' :: (dumpsVal v ++ (dumpsObjSep ms' ++ '\x7d' :: rest))) =
        dumpsStr k ++ ':' :: ' ' :: (dumpsVal v ++ (dumpsObjSep ms' ++ '\x7d' :: rest)) from rfl]
      rw [parse_dumps_members fuel k v ms' rest (by omega) hsafe' hno]
      show some (Json.obj (pyDict ((k, v) :: ms')), rest) = some (Json.obj ((k, v) :: ms'), rest)
      rw [pyDict_nodup _ hnd]

theorem parse_dumps_elems : ∀ (fuel : Nat) (e : Json) (es : List Json) (rest : List Char),
    jsize e + lsizeArr es + 1 ≤ fuel → safeArr (e :: es) = true →
    nodupKeysArr (e :: es) = true →
    parseElems fuel (dumpsVal e ++ (dumpsArrSep es ++ ']' :: rest)) = some (e :: es, rest)
  | 0, e, es, rest, hsz, _, _ => by
    exfalso
    have := jsize_pos e
    omega
  | fuel + 1, e, es, rest, hsz, hsafe, hnodup => by
    obtain ⟨hse, hses⟩ := safeArr_cons hsafe
    obtain ⟨hne, hnes⟩ := nodupArr_cons hnodup
    rw [parseElems_succ]
    rw [parse_dumps_val fuel e (dumpsArrSep es ++ ']' :: rest) (by omega) hse hne
      (parseDelim_arr es rest)]
    cases es with
    | nil => rfl
    | cons e2 es2 =>
      show (match parseElems fuel (' ' :: ((dumpsVal e2 ++ dumpsArrSep es2) ++ ']' :: rest)) with
        | some (vs, r'') => some (e :: vs, r'')
        | none => none) = some (e :: e2 :: es2, rest)
      rw [parseElems_cons_ws fuel (by decide)
        ((dumpsVal e2 ++ dumpsArrSep es2) ++ ']' :: rest)]
      rw [List.append_assoc]
      have hsz2 : jsize e + (jsize e2 + lsizeArr es2) + 1 ≤ fuel + 1 := hsz
      have := jsize_pos e
      rw [parse_dumps_elems fuel e2 es2 rest (by omega) hses hnes]

theorem parse_dumps_members : ∀ (fuel : Nat) (k : String) (v : Json)
    (ms : List (String × Json)) (rest : List Char),
    jsize v + lsizeObj ms + 1 ≤ fuel → safeObj ((k, v) :: ms) = true →
    nodupKeysObj ((k, v) :: ms) = true →
    parseMembers fuel
      (dumpsStr k ++ ':' :: ' ' :: (dumpsVal v ++ (dumpsObjSep ms ++ '\x7d' :: rest))) =
      some ((k, v) :: ms, rest)
  | 0, k, v, ms, rest, hsz, _, _ => by
    exfalso
    have := jsize_pos v
    omega
  | fuel + 1, k, v, ms, rest, hsz, hsafe, hnodup => by
    obtain ⟨hsk, hsv, hsms⟩ := safeObj_cons hsafe
    obtain ⟨hnv, hnms⟩ := nodupObj_cons hnodup
    have hk' : ∀ c ∈ k.data, safeChar c = true := List.all_eq_true.mp hsk
    rw [parseMembers_succ]
    show (match parseStrBody [] ((escapeList k.data ++ ['"']) ++
        (':' :: ' ' :: (dumpsVal v ++ (dumpsObjSep ms ++ '\x7d' :: rest)))) with
      | none => none
      | some (key, r1) =>
        match skipWs r1 with
        | ':' :: r2 =>
          match parseVal fuel r2 with
          | none => none
          | some (v2, r3) =>
            match skipWs r3 with
            | ',' :: r4 =>
              match parseMembers fuel r4 with
              | some (ms2, r5) => some ((key, v2) :: ms2, r5)
              | none => none
            | '\x7d' :: r4 => some ([(key, v2)], r4)
            | _ => none
        | _ => none) = some ((k, v) :: ms, rest)
    rw [escapeList_safe k.data hk']
    rw [List.append_assoc]
    rw [show (['"'] ++ (':' :: ' ' :: (dumpsVal v ++ (dumpsObjSep ms ++ '\x7d' :: rest))) :
      List Char) = '"' :: (':' :: ' ' :: (dumpsVal v ++ (dumpsObjSep ms ++ '\x7d' :: rest)))
      from rfl]
    rw [parseStrBody_content k.data (':' :: ' ' :: (dumpsVal v ++
      (dumpsObjSep ms ++ '\x7d' :: rest))) hk']
    show (match parseVal fuel (' ' :: (dumpsVal v ++ (dumpsObjSep ms ++ '\x7d' :: rest))) with
      | none => none
      | some (v2, r3) =>
        match skipWs r3 with
        | ',' :: r4 =>
          match parseMembers fuel r4 with
          | some (ms2, r5) => some ((k, v2) :: ms2, r5)
          | none => none
        | '\x7d' :: r4 => some ([(k, v2)], r4)
        | _ => none) = some ((k, v) :: ms, rest)
    rw [parseVal_cons_ws fuel (by decide) (dumpsVal v ++ (dumpsObjSep ms ++ '\x7d' :: rest))]
    rw [parse_dumps_val fuel v (dumpsObjSep ms ++ '\x7d' :: rest) (by omega) hsv hnv
      (parseDelim_obj ms rest)]
    cases ms with
    | nil => rfl
    | cons kv2 ms2 =>
      obtain ⟨k2, v2⟩ := kv2
      show (match parseMembers fuel (' ' :: ((dumpsStr k2 ++ ':' :: ' ' ::
          (dumpsVal v2 ++ dumpsObjSep ms2)) ++ '\x7d' :: rest)) with
        | some (ms3, r5) => some ((k, v) :: ms3, r5)
        | none => none) = some ((k, v) :: (k2, v2) :: ms2, rest)
      rw [parseMembers_cons_ws fuel (by decide)
        ((dumpsStr k2 ++ ':' :: ' ' :: (dumpsVal v2 ++ dumpsObjSep ms2)) ++ '\x7d' :: rest)]
      have hsh : (dumpsStr k2 ++ ':' :: ' ' :: (dumpsVal v2 ++ dumpsObjSep ms2)) ++
          '\x7d' :: rest =
          dumpsStr k2 ++ ':' :: ' ' :: (dumpsVal v2 ++ (dumpsObjSep ms2 ++ '\x7d' :: rest)) := by
        simp only [List.append_assoc, List.cons_append]
      rw [hsh]
      have hsz2 : jsize v + (jsize v2 + lsizeObj ms2) + 1 ≤ fuel + 1 := hsz
      have := jsize_pos v
      rw [parse_dumps_members fuel k2 v2 ms2 rest (by omega) hsms hnms]

end

mutual

/-- The default fuel `length + 1` always covers the parser bound. -/
theorem jsize_le_dumps : ∀ p : Json, jsize p ≤ (dumpsVal p).length
  | .null => by decide
  | .bool b => by cases b <;> decide
  | .num i => by
    show 1 ≤ (intChars i).length
    obtain ⟨c, X, hnc⟩ : ∃ c X, intChars i = c :: X := by
      unfold intChars
      by_cases hneg : i < 0
      · rw [if_pos hneg]
        exact ⟨_, _, rfl⟩
      · rw [if_neg hneg]
        exact List.exists_cons_of_ne_nil (natChars_ne_nil _)
    rw [hnc]
    simp only [List.length_cons]
    omega
  | .str s => by
    show 1 ≤ ('"' :: (escapeList s.data ++ ['"'])).length
    simp only [List.length_cons]
    omega
  | .arr es => by
    show 2 + lsizeArr es ≤ ('[' :: (dumpsArr es ++ [']'])).length
    have h := lsizeArr_le_dumps es
    simp only [List.length_cons, List.length_append]
    omega
  | .obj ms => by
    show 2 + lsizeObj ms ≤ ('\x7b' :: (dumpsObj ms ++ ['\x7d'])).length
    have h := lsizeObj_le_dumps ms
    simp only [List.length_cons, List.length_append]
    omega

theorem lsizeArr_le_dumps : ∀ es : List Json, lsizeArr es ≤ (dumpsArr es).length
  | [] => by decide
  | e :: es => by
    show jsize e + lsizeArr es ≤ (dumpsVal e ++ dumpsArrSep es).length
    have h1 := jsize_le_dumps e
    have h2 := lsizeArrSep_le_dumps es
    rw [List.length_append]
    omega

theorem lsizeArrSep_le_dumps : ∀ es : List Json, lsizeArr es ≤ (dumpsArrSep es).length
  | [] => by decide
  | e :: es => by
    show jsize e + lsizeArr es ≤ (',' :: ' ' :: (dumpsVal e ++ dumpsArrSep es)).length
    have h1 := jsize_le_dumps e
    have h2 := lsizeArrSep_le_dumps es
    simp only [List.length_cons, List.length_append]
    omega

theorem lsizeObj_le_dumps : ∀ ms : List (String × Json), lsizeObj ms ≤ (dumpsObj ms).length
  | [] => by decide
  | (k, v) :: ms => by
    show jsize v + lsizeObj ms ≤
      (dumpsStr k ++ ':' :: ' ' :: (dumpsVal v ++ dumpsObjSep ms)).length
    have h1 := jsize_le_dumps v
    have h2 := lsizeObjSep_le_dumps ms
    simp only [List.length_append, List.length_cons]
    omega

theorem lsizeObjSep_le_dumps : ∀ ms : List (String × Json),
    lsizeObj ms ≤ (dumpsObjSep ms).length
  | [] => by decide
  | (k, v) :: ms => by
    show jsize v + lsizeObj ms ≤
      (',' :: ' ' :: (dumpsStr k ++ ':' :: ' ' :: (dumpsVal v ++ dumpsObjSep ms))).length
    have h1 := jsize_le_dumps v
    have h2 := lsizeObjSep_le_dumps ms
    simp only [List.length_cons, List.length_append]
    omega

end

/-- `json.loads(json.dumps(q)) == q` for safe payloads with no repeated
keys. -/
theorem jsonLoads_dumpsVal (q : Json) (hsafe : safeJson q = true)
    (hnodup : nodupKeysJson q = true) :
    jsonLoads (String.mk (dumpsVal q)) = some q := by
  unfold jsonLoads
  have hlen : (String.mk (dumpsVal q)).length = (dumpsVal q).length := rfl
  rw [hlen]
  have hdata : (String.mk (dumpsVal q)).data = dumpsVal q := rfl
  rw [hdata]
  have hfuel : jsize q ≤ (dumpsVal q).length + 1 := by
    have := jsize_le_dumps q
    omega
  have hparse : parseVal ((dumpsVal q).length + 1) (dumpsVal q ++ []) = some (q, []) :=
    parse_dumps_val ((dumpsVal q).length + 1) q [] hfuel hsafe hnodup trivial
  rw [List.append_nil] at hparse
  rw [hparse]
  rfl

/-! ### The substitution at payload level: safety, composition, identity,
key distinctness -/

theorem scanStr_safe (σ : List Char → List Char) (hσ : ShapeOk σ) (s : String)
    (h : safeStr s = true) : safeStr (scanStr σ s) = true := by
  have h' : ∀ c ∈ s.data, safeChar c = true := List.all_eq_true.mp h
  show (applyScan σ s.data).all safeChar = true
  rw [List.all_eq_true]
  exact applyScan_all_safe σ hσ s.data h'

mutual

theorem subst_safe_val (σ : List Char → List Char) (hσ : ShapeOk σ) :
    ∀ p, safeJson p = true → safeJson (substJson σ p) = true
  | .null, _ => rfl
  | .bool _, _ => rfl
  | .num _, _ => rfl
  | .str s, h => scanStr_safe σ hσ s h
  | .arr es, h => subst_safe_arr σ hσ es h
  | .obj ms, h => subst_safe_obj σ hσ ms h

theorem subst_safe_arr (σ : List Char → List Char) (hσ : ShapeOk σ) :
    ∀ es, safeArr es = true → safeArr (substArr σ es) = true
  | [], _ => rfl
  | e :: es, h => by
    obtain ⟨h1, h2⟩ := safeArr_cons h
    show (safeJson (substJson σ e) && safeArr (substArr σ es)) = true
    rw [Bool.and_eq_true]
    exact ⟨subst_safe_val σ hσ e h1, subst_safe_arr σ hσ es h2⟩

theorem subst_safe_obj (σ : List Char → List Char) (hσ : ShapeOk σ) :
    ∀ ms, safeObj ms = true → safeObj (substObj σ ms) = true
  | [], _ => rfl
  | (k, v) :: ms, h => by
    obtain ⟨h1, h2, h3⟩ := safeObj_cons h
    show (safeStr (scanStr σ k) && safeJson (substJson σ v) &&
      safeObj (substObj σ ms)) = true
    rw [Bool.and_eq_true, Bool.and_eq_true]
    exact ⟨⟨scanStr_safe σ hσ k h1, subst_safe_val σ hσ v h2⟩, subst_safe_obj σ hσ ms h3⟩

end

mutual

theorem subst_comp_val (σ₁ σ₂ : List Char → List Char) (hσ : ShapeOk σ₁) :
    ∀ p, substJson σ₂ (substJson σ₁ p) = substJson (fun u => σ₂ (σ₁ u)) p
  | .null => rfl
  | .bool _ => rfl
  | .num _ => rfl
  | .str s => by
    show Json.str (scanStr σ₂ (scanStr σ₁ s)) = Json.str (scanStr (fun u => σ₂ (σ₁ u)) s)
    unfold scanStr
    rw [show (String.mk (applyScan σ₁ s.data)).data = applyScan σ₁ s.data from rfl]
    rw [applyScan_comp σ₁ σ₂ hσ s.data]
  | .arr es => by
    show Json.arr (substArr σ₂ (substArr σ₁ es)) = Json.arr (substArr (fun u => σ₂ (σ₁ u)) es)
    rw [subst_comp_arr σ₁ σ₂ hσ es]
  | .obj ms => by
    show Json.obj (substObj σ₂ (substObj σ₁ ms)) = Json.obj (substObj (fun u => σ₂ (σ₁ u)) ms)
    rw [subst_comp_obj σ₁ σ₂ hσ ms]

theorem subst_comp_arr (σ₁ σ₂ : List Char → List Char) (hσ : ShapeOk σ₁) :
    ∀ es, substArr σ₂ (substArr σ₁ es) = substArr (fun u => σ₂ (σ₁ u)) es
  | [] => rfl
  | e :: es => by
    show substJson σ₂ (substJson σ₁ e) :: substArr σ₂ (substArr σ₁ es) =
      substJson (fun u => σ₂ (σ₁ u)) e :: substArr (fun u => σ₂ (σ₁ u)) es
    rw [subst_comp_val σ₁ σ₂ hσ e, subst_comp_arr σ₁ σ₂ hσ es]

theorem subst_comp_obj (σ₁ σ₂ : List Char → List Char) (hσ : ShapeOk σ₁) :
    ∀ ms, substObj σ₂ (substObj σ₁ ms) = substObj (fun u => σ₂ (σ₁ u)) ms
  | [] => rfl
  | (k, v) :: ms => by
    show (scanStr σ₂ (scanStr σ₁ k), substJson σ₂ (substJson σ₁ v)) ::
      substObj σ₂ (substObj σ₁ ms) =
      (scanStr (fun u => σ₂ (σ₁ u)) k, substJson (fun u => σ₂ (σ₁ u)) v) ::
      substObj (fun u => σ₂ (σ₁ u)) ms
    have hk : scanStr σ₂ (scanStr σ₁ k) = scanStr (fun u => σ₂ (σ₁ u)) k := by
      unfold scanStr
      rw [show (String.mk (applyScan σ₁ k.data)).data = applyScan σ₁ k.data from rfl]
      rw [applyScan_comp σ₁ σ₂ hσ k.data]
    rw [hk, subst_comp_val σ₁ σ₂ hσ v, subst_comp_obj σ₁ σ₂ hσ ms]

end

mutual

theorem subst_id_val (σ : List Char → List Char) :
    ∀ p, (∀ u ∈ idsOfVal p, σ u = u) → substJson σ p = p
  | .null, _ => rfl
  | .bool _, _ => rfl
  | .num _, _ => rfl
  | .str s, h => by
    show Json.str (scanStr σ s) = Json.str s
    unfold scanStr
    rw [applyScan_id σ s.data h]
  | .arr es, h => by
    show Json.arr (substArr σ es) = Json.arr es
    rw [subst_id_arr σ es h]
  | .obj ms, h => by
    show Json.obj (substObj σ ms) = Json.obj ms
    rw [subst_id_obj σ ms h]

theorem subst_id_arr (σ : List Char → List Char) :
    ∀ es, (∀ u ∈ idsOfArr es, σ u = u) → substArr σ es = es
  | [], _ => rfl
  | e :: es, h => by
    show substJson σ e :: substArr σ es = e :: es
    rw [subst_id_val σ e (fun u hu => h u (List.mem_append.mpr (Or.inl hu))),
      subst_id_arr σ es (fun u hu => h u (List.mem_append.mpr (Or.inr hu)))]

theorem subst_id_obj (σ : List Char → List Char) :
    ∀ ms, (∀ u ∈ idsOfObj ms, σ u = u) → substObj σ ms = ms
  | [], _ => rfl
  | (k, v) :: ms, h => by
    show (scanStr σ k, substJson σ v) :: substObj σ ms = (k, v) :: ms
    have hk : ∀ u ∈ foundIds k.data, σ u = u := fun u hu =>
      h u (List.mem_append.mpr (Or.inl (List.mem_append.mpr (Or.inl hu))))
    have hv : ∀ u ∈ idsOfVal v, σ u = u := fun u hu =>
      h u (List.mem_append.mpr (Or.inl (List.mem_append.mpr (Or.inr hu))))
    have hm : ∀ u ∈ idsOfObj ms, σ u = u := fun u hu =>
      h u (List.mem_append.mpr (Or.inr hu))
    have hks : scanStr σ k = k := by
      unfold scanStr
      rw [applyScan_id σ k.data hk]
    rw [hks, subst_id_val σ v hv, subst_id_obj σ ms hm]

end

theorem substObj_keys (σ : List Char → List Char) :
    ∀ ms, (substObj σ ms).map Prod.fst = (ms.map Prod.fst).map (scanStr σ)
  | [] => rfl
  | (k, v) :: ms => by
    show scanStr σ k :: (substObj σ ms).map Prod.fst =
      scanStr σ k :: (ms.map Prod.fst).map (scanStr σ)
    rw [substObj_keys σ ms]

theorem scanStr_inj_on (σ : List Char → List Char) (hσ : ShapeOk σ) (k1 k2 : String)
    (hinj : ∀ u1 ∈ foundIds k1.data, ∀ u2 ∈ foundIds k2.data, σ u1 = σ u2 → u1 = u2)
    (h : scanStr σ k1 = scanStr σ k2) : k1 = k2 := by
  have hd : applyScan σ k1.data = applyScan σ k2.data := congrArg String.data h
  have hprof : profile k1.data = profile k2.data := by
    have p1 := applyScan_profile σ hσ k1.data
    have p2 := applyScan_profile σ hσ k2.data
    rw [← p1, ← p2, hd]
  exact congrArg String.mk (applyScan_inj σ hσ k1.data k2.data hprof hinj hd)

theorem keys_ids_sub : ∀ (ms : List (String × Json)) (k : String),
    k ∈ ms.map Prod.fst → ∀ u ∈ foundIds k.data, u ∈ idsOfObj ms
  | [], k, hk, _, _ => absurd hk (by simp)
  | (k', v') :: ms, k, hk, u, hu => by
    show u ∈ foundIds k'.data ++ idsOfVal v' ++ idsOfObj ms
    rw [List.mem_append, List.mem_append]
    have hk' : k ∈ k' :: ms.map Prod.fst := hk
    rcases List.mem_cons.mp hk' with he | hm
    · exact Or.inl (Or.inl (by rw [← he]; exact hu))
    · exact Or.inr (keys_ids_sub ms k hm u hu)

mutual

theorem subst_nodup_val (σ : List Char → List Char) (hσ : ShapeOk σ) :
    ∀ p, nodupKeysJson p = true →
    (∀ u1 ∈ idsOfVal p, ∀ u2 ∈ idsOfVal p, σ u1 = σ u2 → u1 = u2) →
    nodupKeysJson (substJson σ p) = true
  | .null, _, _ => rfl
  | .bool _, _, _ => rfl
  | .num _, _, _ => rfl
  | .str _, _, _ => rfl
  | .arr es, h, hinj => subst_nodup_arr σ hσ es h hinj
  | .obj ms, h, hinj => by
    obtain ⟨hnd, hno⟩ := nodupJson_obj h
    show (decide (((substObj σ ms).map Prod.fst).Nodup) &&
      nodupKeysObj (substObj σ ms)) = true
    rw [Bool.and_eq_true, decide_eq_true_eq, substObj_keys σ ms]
    constructor
    · exact hnd.map_on (fun k1 hk1 k2 hk2 he =>
        scanStr_inj_on σ hσ k1 k2 (fun u1 hu1 u2 hu2 =>
          hinj u1 (keys_ids_sub ms k1 hk1 u1 hu1) u2 (keys_ids_sub ms k2 hk2 u2 hu2)) he)
    · exact subst_nodup_obj σ hσ ms hno hinj

theorem subst_nodup_arr (σ : List Char → List Char) (hσ : ShapeOk σ) :
    ∀ es, nodupKeysArr es = true →
    (∀ u1 ∈ idsOfArr es, ∀ u2 ∈ idsOfArr es, σ u1 = σ u2 → u1 = u2) →
    nodupKeysArr (substArr σ es) = true
  | [], _, _ => rfl
  | e :: es, h, hinj => by
    obtain ⟨h1, h2⟩ := nodupArr_cons h
    show (nodupKeysJson (substJson σ e) && nodupKeysArr (substArr σ es)) = true
    rw [Bool.and_eq_true]
    refine ⟨subst_nodup_val σ hσ e h1 ?_, subst_nodup_arr σ hσ es h2 ?_⟩
    · exact fun u1 hu1 u2 hu2 => hinj u1 (List.mem_append.mpr (Or.inl hu1))
        u2 (List.mem_append.mpr (Or.inl hu2))
    · exact fun u1 hu1 u2 hu2 => hinj u1 (List.mem_append.mpr (Or.inr hu1))
        u2 (List.mem_append.mpr (Or.inr hu2))

theorem subst_nodup_obj (σ : List Char → List Char) (hσ : ShapeOk σ) :
    ∀ ms, nodupKeysObj ms = true →
    (∀ u1 ∈ idsOfObj ms, ∀ u2 ∈ idsOfObj ms, σ u1 = σ u2 → u1 = u2) →
    nodupKeysObj (substObj σ ms) = true
  | [], _, _ => rfl
  | (k, v) :: ms, h, hinj => by
    obtain ⟨h1, h2⟩ := nodupObj_cons h
    show (nodupKeysJson (substJson σ v) && nodupKeysObj (substObj σ ms)) = true
    rw [Bool.and_eq_true]
    refine ⟨subst_nodup_val σ hσ v h1 ?_, subst_nodup_obj σ hσ ms h2 ?_⟩
    · exact fun u1 hu1 u2 hu2 => hinj
        u1 (List.mem_append.mpr (Or.inl (List.mem_append.mpr (Or.inr hu1))))
        u2 (List.mem_append.mpr (Or.inl (List.mem_append.mpr (Or.inr hu2))))
    · exact fun u1 hu1 u2 hu2 => hinj
        u1 (List.mem_append.mpr (Or.inr hu1))
        u2 (List.mem_append.mpr (Or.inr hu2))

end

/-! ### The id mapping as a function on windows -/

theorem alookup_cons {α : Type} (k' : String) (v' : α) (t : List (String × α))
    (k : String) :
    alookup ((k', v') :: t) k = if k' = k then some v' else alookup t k := rfl

theorem alookup_some_mem {α : Type} : ∀ (l : List (String × α)) {k : String} {v : α},
    alookup l k = some v → (k, v) ∈ l
  | [], _, _, h => Option.noConfusion h
  | (k', v') :: t, k, v, h => by
    rw [alookup_cons] at h
    by_cases he : k' = k
    · rw [if_pos he] at h
      injection h with h
      subst he
      subst h
      exact List.mem_cons_self _ _
    · rw [if_neg he] at h
      exact List.mem_cons_of_mem _ (alookup_some_mem t h)

theorem alookup_of_not_mem {α : Type} : ∀ (l : List (String × α)) {k : String},
    ¬ k ∈ l.map Prod.fst → alookup l k = none
  | [], _, _ => rfl
  | (k', v') :: t, k, h => by
    rw [alookup_cons]
    have hne : ¬ (k' = k) := fun he => h (by simp [he])
    rw [if_neg hne]
    exact alookup_of_not_mem t (fun hm => h (by
      simp only [List.map_cons, List.mem_cons]
      exact Or.inr hm))

theorem mem_alookup_nodup {α : Type} : ∀ (l : List (String × α)) {k : String} {v : α},
    (l.map Prod.fst).Nodup → (k, v) ∈ l → alookup l k = some v
  | [], _, _, _, hm => absurd hm (by simp)
  | (k', v') :: t, k, v, hnd, hm => by
    rw [alookup_cons]
    simp only [List.map_cons, List.nodup_cons] at hnd
    rcases List.mem_cons.mp hm with he | hm'
    · injection he with he1 he2
      rw [if_pos he1.symm, he2]
    · have hne : ¬ (k' = k) := by
        intro he
        apply hnd.1
        subst he
        exact List.mem_map.mpr ⟨(k', v), hm', rfl⟩
      rw [if_neg hne]
      exact mem_alookup_nodup t hnd.2 hm'

theorem mem_invertMap {m : List (String × String)} {k v : String} :
    (v, k) ∈ invertMap m ↔ (k, v) ∈ m := by
  unfold invertMap
  constructor
  · intro h
    obtain ⟨kv, hkv, he⟩ := List.mem_map.mp h
    obtain ⟨a, b⟩ := kv
    injection he with h1 h2
    rw [← h1, ← h2]
    exact List.mem_reverse.mp hkv
  · intro h
    exact List.mem_map.mpr ⟨(k, v), List.mem_reverse.mpr h, rfl⟩

theorem invertMap_keys : ∀ (m : List (String × String)),
    (invertMap m).map Prod.fst = (m.map Prod.snd).reverse
  | [] => rfl
  | (a, b) :: m => by
    have h1 : invertMap ((a, b) :: m) = invertMap m ++ [(b, a)] := by
      unfold invertMap
      rw [List.reverse_cons, List.map_append]
      rfl
    rw [h1, List.map_append, invertMap_keys m]
    show (m.map Prod.snd).reverse ++ [b] = (((a, b) :: m).map Prod.snd).reverse
    rw [show ((a, b) :: m).map Prod.snd = b :: m.map Prod.snd from rfl]
    rw [List.reverse_cons]

/-- A `replace_id` built from UUID-shaped replacement values is
shape-preserving. -/
theorem ShapeOk_idSub (m : List (String × String))
    (hvals : ∀ kv ∈ m, uuidShapedStr kv.2 = true) : ShapeOk (idSub m) := by
  intro u hu
  show uuidShaped (match alookup m (String.mk u) with
    | some v => v.data
    | none => u) = true
  cases halt : alookup m (String.mk u) with
  | none => exact hu
  | some v => exact hvals (String.mk u, v) (alookup_some_mem m halt)

theorem invertMap_vals_shaped (m : List (String × String))
    (hkeys : ∀ kv ∈ m, uuidShapedStr kv.1 = true) :
    ∀ kv ∈ invertMap m, uuidShapedStr kv.2 = true := by
  intro kv hkv
  unfold invertMap at hkv
  obtain ⟨kv', hkv', he⟩ := List.mem_map.mp hkv
  rw [← he]
  exact hkeys kv' (List.mem_reverse.mp hkv')

/-- The key identity behind the round trip: mapping a window through the
inverted dict and then through the dict itself restores it, provided keys
and values are distinct and the window is only a key when it is also a
value. -/
theorem idSub_comp_id (m : List (String × String))
    (hkeysnd : (m.map Prod.fst).Nodup) (hvalsnd : (m.map Prod.snd).Nodup)
    {u : List Char}
    (hu : String.mk u ∈ m.map Prod.fst → String.mk u ∈ m.map Prod.snd) :
    idSub m (idSub (invertMap m) u) = u := by
  by_cases hv : String.mk u ∈ m.map Prod.snd
  · obtain ⟨kv, hkvm, hkv2⟩ := List.mem_map.mp hv
    obtain ⟨k, v⟩ := kv
    have hv2 : v = String.mk u := hkv2
    have hmem : (k, String.mk u) ∈ m := hv2 ▸ hkvm
    have hinv : alookup (invertMap m) (String.mk u) = some k := by
      apply mem_alookup_nodup
      · rw [invertMap_keys]
        exact List.nodup_reverse.mpr hvalsnd
      · exact mem_invertMap.mpr hmem
    have hstep : idSub (invertMap m) u = k.data := by
      unfold idSub
      rw [hinv]
    rw [hstep]
    have hstep2 : idSub m k.data = u := by
      unfold idSub
      rw [show String.mk k.data = k from rfl]
      rw [mem_alookup_nodup m hkeysnd hmem]
    exact hstep2
  · have hk : ¬ String.mk u ∈ m.map Prod.fst := fun h => hv (hu h)
    have hinv : alookup (invertMap m) (String.mk u) = none := by
      apply alookup_of_not_mem
      rw [invertMap_keys]
      intro hmem
      exact hv (List.mem_reverse.mp hmem)
    have hstep : idSub (invertMap m) u = u := by
      unfold idSub
      rw [hinv]
    rw [hstep]
    unfold idSub
    rw [alookup_of_not_mem m hk]

/-- C2 (counterexample): the round trip fails on a payload with no ids at
all, under an injective id map — so the "bijection restricted to the ids
present in p" hypothesis cannot rescue the claim.  The payload's only
string starts with the form-feed character, serialized as the escape
`\f…`; the scan finds the UUID-shaped window `f1111111-…` spanning that
escape.  The inverse map does not touch it (its keys are elsewhere), but
the forward map rewrites it, corrupting the escape into `\2…`, and
`json.loads` fails (`none` — `JSONDecodeError`). -/
theorem claim2_counterexample :
    update_ids (invertMap [("f1111111-1111-1111-1111-111111111111",
        "22222222-2222-2222-2222-222222222222")])
      (Json.obj [("k", Json.str "\x0c1111111-1111-1111-1111-111111111111")]) =
      some (Json.obj [("k", Json.str "\x0c1111111-1111-1111-1111-111111111111")]) ∧
    update_ids [("f1111111-1111-1111-1111-111111111111",
        "22222222-2222-2222-2222-222222222222")]
      (Json.obj [("k", Json.str "\x0c1111111-1111-1111-1111-111111111111")]) = none ∧
    idsOfVal (Json.obj [("k", Json.str "\x0c1111111-1111-1111-1111-111111111111")]) = [] :=
  ⟨rfl, rfl, rfl⟩

/-- C2 (amended): for every payload whose strings hold only characters
that `json.dumps` emits literally (printable ASCII other than `"` and
`\`) and whose objects repeat no key, and every id map with UUID-shaped,
duplicate-free keys and values such that every id present in the payload
that occurs among the map's keys also occurs among its values, rewriting
the payload with the inverted map and the result with the map itself
restores the payload: there is a `q` with
`update_ids(inverse(m), p) == q` and `update_ids(m, q) == p`. -/
theorem claim2_amended (m : List (String × String)) (p : Json)
    (hsafe : safeJson p = true) (hnodup : nodupKeysJson p = true)
    (hkeys : ∀ kv ∈ m, uuidShapedStr kv.1 = true)
    (hvals : ∀ kv ∈ m, uuidShapedStr kv.2 = true)
    (hkeysnd : (m.map Prod.fst).Nodup)
    (hvalsnd : (m.map Prod.snd).Nodup)
    (hcover : ∀ u ∈ idsOfVal p,
      String.mk u ∈ m.map Prod.fst → String.mk u ∈ m.map Prod.snd) :
    ∃ q, update_ids (invertMap m) p = some q ∧ update_ids m q = some p := by
  have hσ1 : ShapeOk (idSub (invertMap m)) :=
    ShapeOk_idSub (invertMap m) (invertMap_vals_shaped m hkeys)
  have hσ2 : ShapeOk (idSub m) := ShapeOk_idSub m hvals
  have hid : ∀ u ∈ idsOfVal p, idSub m (idSub (invertMap m) u) = u :=
    fun u hu => idSub_comp_id m hkeysnd hvalsnd (hcover u hu)
  have hinj : ∀ u1 ∈ idsOfVal p, ∀ u2 ∈ idsOfVal p,
      idSub (invertMap m) u1 = idSub (invertMap m) u2 → u1 = u2 := by
    intro u1 hu1 u2 hu2 he
    have h1 := hid u1 hu1
    have h2 := hid u2 hu2
    rw [← h1, ← h2, he]
  have hsafeq : safeJson (substJson (idSub (invertMap m)) p) = true :=
    subst_safe_val _ hσ1 p hsafe
  have hnodupq : nodupKeysJson (substJson (idSub (invertMap m)) p) = true :=
    subst_nodup_val _ hσ1 p hnodup hinj
  refine ⟨substJson (idSub (invertMap m)) p, ?_, ?_⟩
  · unfold update_ids
    rw [scan_dumps_val _ hσ1 p hsafe]
    exact jsonLoads_dumpsVal _ hsafeq hnodupq
  · unfold update_ids
    rw [scan_dumps_val _ hσ2 _ hsafeq]
    rw [subst_comp_val (idSub (invertMap m)) (idSub m) hσ1 p]
    rw [subst_id_val _ p hid]
    exact jsonLoads_dumpsVal p hsafe hnodup

/-- C2 (witness): the amended round trip at a concrete map and payload,
with the id referenced twice. -/
theorem claim2_witness :
    ∃ q, update_ids (invertMap [("22222222-2222-2222-2222-222222222222",
        "11111111-1111-1111-1111-111111111111")])
      (Json.obj [("id", Json.str "11111111-1111-1111-1111-111111111111"),
        ("desc", Json.str
          "refs 11111111-1111-1111-1111-111111111111 twice 11111111-1111-1111-1111-111111111111")]) =
        some q ∧
    update_ids [("22222222-2222-2222-2222-222222222222",
        "11111111-1111-1111-1111-111111111111")] q =
      some (Json.obj [("id", Json.str "11111111-1111-1111-1111-111111111111"),
        ("desc", Json.str
          "refs 11111111-1111-1111-1111-111111111111 twice 11111111-1111-1111-1111-111111111111")]) :=
  claim2_amended _ _ (by decide) (by decide) (by decide) (by decide) (by decide)
    (by decide) (by decide)

end Sastre
